import Mathlib

/-! # camper-cpp-json: the recursive-descent parser

A shallow embedding of `parser.cpp`, `parser.hpp` and `position.hpp`.

* `std::string` is a Lean `String`, one `Char` per C++ `char`.
* `size_t` values are natural numbers; arithmetic that can wrap is taken modulo `2 ^ 64`.
* The parser's mutable members (`lexer`, `current`, the shared `ErrorCollector`) are threaded
  through the functions as a `Parser` record.
* A call can end in three ways, see `Result`: it returns, the process is terminated by an
  exception leaving a `noexcept` function, or the recursion/loop budget (`fuel`) is used up.
  A call that uses up every budget is a call that never returns.
-/

namespace CamperJson

/-! ## position.hpp -/

/-- The struct `Position`. -/
structure Position where
  index : Nat
  line : Nat
  column : Nat
deriving DecidableEq, Repr

/-- The modulus of `size_t` arithmetic. -/
def SIZE_MOD : Nat := 2 ^ 64

/-- The members `std::string::substr(pos, count)` and `std::string_view::substr(pos, count)`:
the characters `[pos, pos + min(count, size - pos))`; `none` is the `std::out_of_range`
exception thrown when `pos > size`. -/
def substr (text : String) (pos count : Nat) : Option String :=
  if pos > text.length then none else some ⟨(text.data.drop pos).take count⟩

/-- The member `Position::value(text, length)`. -/
def Position.value (pos : Position) (text : String) (length : Nat) : Option String :=
  substr text pos.index length

/-- The struct `Error` of position.hpp: one diagnostic. -/
structure Error where
  pos : Position
  message : String
deriving DecidableEq, Repr

/-- The rendering of a `size_t` by `std::format("{}")`. -/
def format_size (n : Nat) : String := toString n

/-- The member `Error::to_string`. -/
def Error.to_string (e : Error) : String :=
  "error: " ++ e.message ++ ", at " ++ format_size e.pos.line ++ ":" ++ format_size e.pos.column

/-- The struct `ErrorCollector`. -/
structure ErrorCollector where
  errors : List Error := []
deriving DecidableEq, Repr

/-- The member `ErrorCollector::add`: `errors.push_back(error)`. -/
def ErrorCollector.add (c : ErrorCollector) (error : Error) : ErrorCollector :=
  { errors := c.errors ++ [error] }

/-- The member `ErrorCollector::contains_error`. -/
def ErrorCollector.contains_error (c : ErrorCollector) : Bool :=
  !c.errors.isEmpty

/-! ## lexer.hpp (not among the sources) -/

/-- Modelled from the spec: the enum `TokenType` of lexer.hpp, with the kinds the spec lists in
its data model; `Invalid` is the kind of a character that starts no token. -/
inductive TokenType where
  | Null | True | False | Int | Decimal | String
  | LBracket | RBracket | LBrace | RBrace | Colon | Comma | Eof | Invalid
deriving DecidableEq, Repr

/-- Modelled from the spec: the struct `Token` of lexer.hpp, a kind, a position and a length
(a `size_t`). -/
structure Token where
  type : TokenType
  pos : Position
  length : Nat
deriving DecidableEq, Repr

/-- Modelled from the spec: the member `Token::value(text)` of lexer.hpp, the source slice of
the token's length at the token's position. -/
def Token.value (t : Token) (text : String) : Option String :=
  t.pos.value text t.length

/-- Modelled from the spec: the class `Lexer` of lexer.hpp, seen from the parser: the tokens
it has not handed out yet (`rest`), the position of the `Eof` token it returns once they are
used up, and the number of tokens it has handed out so far (`consumed`). -/
structure Lexer where
  rest : List Token
  eofPos : Position
  consumed : Nat := 0
deriving DecidableEq, Repr

/-- Modelled from the spec: the member `Lexer::next`, the next token, and `Eof` forever once
the input is used up. -/
def Lexer.next (l : Lexer) : Token × Lexer :=
  match l.rest with
  | [] => (⟨TokenType.Eof, l.eofPos, 0⟩, { l with consumed := l.consumed + 1 })
  | t :: ts => (t, { l with rest := ts, consumed := l.consumed + 1 })

/-! ## parser.hpp -/

/-- The payload of `ast::Decimal`, a `double`, as its 64 bits. -/
structure Double where
  bits : Nat
deriving DecidableEq, Repr

/-- The node hierarchy of namespace `ast` as a closed sum type. `Object` holds the
`std::unordered_map` as an association list with one entry per key. -/
inductive Node where
  | Error
  | Null
  | Bool (value : Bool)
  | Int (value : Int)
  | Decimal (value : Double)
  | String (value : String)
  | Array (values : List Node)
  | Object (fields : List (String × Node))
deriving Repr

/-- The three ways a call can end: it returns `a`; the process is terminated (`std::terminate`,
an exception leaving a `noexcept` function); or the budget of nested calls and loop rounds is
used up before it returns. -/
inductive Result (α : Type) where
  | ret (a : α)
  | terminated
  | outOfFuel
deriving Repr

/-- What the parser uses and the sources do not define: the table `token_type_value` of
lexer.hpp (the printed name of a token kind) and the library conversion `std::stod`
(`none` is a thrown exception). -/
structure Env where
  token_type_value : TokenType → String
  stod : String → Option Double

/-- The test `std::isspace` in the "C" locale. -/
def isspace (c : Char) : Bool :=
  c = ' ' || c = '\t' || c = '\n' || c = '\x0b' || c = '\x0c' || c = '\r'

/-- The value of a decimal digit character. -/
def digit_value (c : Char) : Nat := c.toNat - '0'.toNat

/-- The library conversion `std::stoll(str)` in base 10: leading white space is skipped, one
sign is accepted, the longest run of digits is converted and what follows is ignored. `none` is
a thrown exception: `std::invalid_argument` when there is no digit, `std::out_of_range` when
the value is not an `int64_t`. -/
def stoll (str : String) : Option Int :=
  let cs := str.data.dropWhile isspace
  let negative : Bool := cs.head? = some '-'
  let unsigned := if cs.head? = some '-' ∨ cs.head? = some '+' then cs.tail else cs
  let digits := unsigned.takeWhile Char.isDigit
  if digits = [] then none
  else
    let magnitude : Nat := digits.foldl (fun a c => 10 * a + digit_value c) 0
    let value : Int := if negative then -(magnitude : Int) else (magnitude : Int)
    if -(2 : Int) ^ 63 ≤ value ∧ value < (2 : Int) ^ 63 then some value else none

/-- The class `Parser`: its members `text`, `lexer`, `current`, and the `ErrorCollector` that
`errors` points to. -/
structure Parser where
  text : String
  lexer : Lexer
  errors : ErrorCollector
  current : Token
deriving DecidableEq, Repr

/-- The constructor `Parser(text, errors)`: `current` is the first token of the lexer. -/
def Parser.init (text : String) (lexer : Lexer) (errors : ErrorCollector) : Parser :=
  { text := text, lexer := lexer.next.2, errors := errors, current := lexer.next.1 }

/-- The member `Parser::string_literal_value`, with the member `text` it reads as an argument:
`text.substr(token.pos.index + 1, token.length - 2)` in `size_t` arithmetic. -/
def string_literal_value (text : String) (token : Token) : Option String :=
  substr text ((token.pos.index + 1) % SIZE_MOD) ((token.length + SIZE_MOD - 2) % SIZE_MOD)

/-- The member `Parser::add_unexpected_error`. -/
def add_unexpected_error (env : Env) (expected : String) (p : Parser) : Parser :=
  let message := "expected " ++ expected ++ ", got " ++ env.token_type_value p.current.type
  { p with errors := p.errors.add { pos := p.current.pos, message := message } }

/-- The member `Parser::step`. -/
def step (p : Parser) : Parser :=
  { p with current := p.lexer.next.1, lexer := p.lexer.next.2 }

/-- The member `Parser::done`. -/
def done (p : Parser) : Bool := p.current.type = TokenType.Eof

/-! ## parser.cpp -/

/-- The member `Parser::parse_null`. -/
def parse_null (p : Parser) : Result (Node × Parser) :=
  Result.ret (Node.Null, step p)

/-- The member `Parser::parse_bool`. -/
def parse_bool (p : Parser) : Result (Node × Parser) :=
  let value : Bool := p.current.type = TokenType.True
  Result.ret (Node.Bool value, step p)

/-- The member `Parser::parse_int`; it is `noexcept`, so an exception from `substr` or
`std::stoll` terminates the process. -/
def parse_int (p : Parser) : Result (Node × Parser) :=
  match (p.current.value p.text).bind stoll with
  | none => Result.terminated
  | some value => Result.ret (Node.Int value, step p)

/-- The member `Parser::parse_decimal`; `noexcept` like `parse_int`. -/
def parse_decimal (env : Env) (p : Parser) : Result (Node × Parser) :=
  match (p.current.value p.text).bind env.stod with
  | none => Result.terminated
  | some value => Result.ret (Node.Decimal value, step p)

/-- The member `Parser::parse_string`; `noexcept`, so `std::out_of_range` from `substr`
terminates the process. -/
def parse_string (p : Parser) : Result (Node × Parser) :=
  match string_literal_value p.text p.current with
  | none => Result.terminated
  | some value => Result.ret (Node.String value, step p)

/-- The call `fields.emplace(key, value)` of `std::unordered_map`: the entry is inserted only
if the map has no entry for `key` yet. -/
def emplace (fields : List (String × Node)) (key : String) (value : Node) :
    List (String × Node) :=
  if fields.any (fun kv => kv.1 = key) then fields else fields ++ [(key, value)]

/-- The `while` loop of `Parser::parse_array` (lines 71-81); `parse` is the member
`Parser::parse` it calls, `array` the vector built so far, and each round costs one unit of
fuel. -/
def parse_array_loop (env : Env) (parse : Parser → Result (Node × Parser)) :
    Nat → Parser → List Node → Result (List Node × Parser)
  | 0, _, _ => Result.outOfFuel
  | fuel + 1, p, array =>
    if done p then Result.ret (array, p)
    else
      match parse p with
      | Result.terminated => Result.terminated
      | Result.outOfFuel => Result.outOfFuel
      | Result.ret (value, p1) =>
        let array1 := array ++ [value]
        if p1.current.type = TokenType.RBracket then Result.ret (array1, p1)
        else
          let p2 :=
            if p1.current.type ≠ TokenType.Comma then add_unexpected_error env "','" p1 else p1
          parse_array_loop env parse fuel (step p2) array1

/-- The member `Parser::parse_array`. -/
def parse_array (env : Env) (parse : Parser → Result (Node × Parser)) (fuel : Nat)
    (p : Parser) : Result (Node × Parser) :=
  match parse_array_loop env parse fuel p [] with
  | Result.terminated => Result.terminated
  | Result.outOfFuel => Result.outOfFuel
  | Result.ret (array, p1) =>
    let p2 :=
      if p1.current.type ≠ TokenType.RBracket then add_unexpected_error env "']'" p1 else p1
    Result.ret (Node.Array array, step p2)

/-- The inner `while` loop of `Parser::parse_object` (lines 96-99): tokens are skipped up to
`Eof`, a `String` or a `LBrace`; each round costs one unit of fuel. -/
def skip_loop : Nat → Parser → Result Parser
  | 0, _ => Result.outOfFuel
  | fuel + 1, p =>
    if !done p && p.current.type ≠ TokenType.String && p.current.type ≠ TokenType.LBrace then
      skip_loop fuel (step p)
    else Result.ret p

/-- The outer `while` loop of `Parser::parse_object` (lines 93-121); `fields` is the map built
so far and each round costs one unit of fuel. -/
def parse_object_loop (env : Env) (parse : Parser → Result (Node × Parser)) :
    Nat → Parser → List (String × Node) → Result (List (String × Node) × Parser)
  | 0, _, _ => Result.outOfFuel
  | fuel + 1, p, fields =>
    if done p then Result.ret (fields, p)
    else if p.current.type ≠ TokenType.String then
      match skip_loop fuel (add_unexpected_error env "String or '\x7d'" p) with
      | Result.terminated => Result.terminated
      | Result.outOfFuel => Result.outOfFuel
      | Result.ret p1 => parse_object_loop env parse fuel p1 fields
    else
      match string_literal_value p.text p.current with
      | none => Result.terminated
      | some key =>
        let p1 := step p
        let p2 :=
          if p1.current.type ≠ TokenType.Colon then add_unexpected_error env "':'" p1
          else step p1
        match parse p2 with
        | Result.terminated => Result.terminated
        | Result.outOfFuel => Result.outOfFuel
        | Result.ret (value, p3) =>
          let fields1 := emplace fields key value
          if p3.current.type = TokenType.RBrace then Result.ret (fields1, p3)
          else
            let p4 :=
              if p3.current.type ≠ TokenType.Comma then add_unexpected_error env "','" p3
              else step p3
            parse_object_loop env parse fuel p4 fields1

/-- The member `Parser::parse_object`. -/
def parse_object (env : Env) (parse : Parser → Result (Node × Parser)) (fuel : Nat)
    (p : Parser) : Result (Node × Parser) :=
  match parse_object_loop env parse fuel (step p) [] with
  | Result.terminated => Result.terminated
  | Result.outOfFuel => Result.outOfFuel
  | Result.ret (fields, p1) =>
    let p2 :=
      if p1.current.type ≠ TokenType.RBrace then add_unexpected_error env "'\x7d'" p1 else p1
    Result.ret (Node.Object fields, step p2)

/-- The member `Parser::parse`. One unit of fuel is spent per nested call; the loops of
`parse_array` and `parse_object` run on the remaining fuel. -/
def parse (env : Env) : Nat → Parser → Result (Node × Parser)
  | 0, _ => Result.outOfFuel
  | fuel + 1, p =>
    match p.current.type with
    | TokenType.Null => parse_null p
    | TokenType.False => parse_bool p
    | TokenType.True => parse_bool p
    | TokenType.Int => parse_int p
    | TokenType.Decimal => parse_decimal env p
    | TokenType.String => parse_string p
    | TokenType.LBracket => parse_array env (parse env fuel) fuel p
    | TokenType.LBrace => parse_object env (parse env fuel) fuel p
    | _ => Result.ret (Node.Error, step (add_unexpected_error env "value" p))

/-! ## Inputs used in the examples -/

/-- A table for `token_type_value`: punctuation prints as its character, the other kinds as
their names; `std::stod` is left without any convertible text. -/
def demo_env : Env where
  token_type_value := fun t =>
    match t with
    | TokenType.Null => "null"
    | TokenType.True => "true"
    | TokenType.False => "false"
    | TokenType.Int => "Int"
    | TokenType.Decimal => "Decimal"
    | TokenType.String => "String"
    | TokenType.LBracket => "["
    | TokenType.RBracket => "]"
    | TokenType.LBrace => "\x7b"
    | TokenType.RBrace => "\x7d"
    | TokenType.Colon => ":"
    | TokenType.Comma => ","
    | TokenType.Eof => "Eof"
    | TokenType.Invalid => "Invalid"
  stod := fun _ => none

/-- A token of kind `t` and length `len` at index `i` of a one-line text (line 1, column
`i + 1`). -/
def tok (t : TokenType) (i len : Nat) : Token :=
  { type := t, pos := { index := i, line := 1, column := i + 1 }, length := len }

/-- The parser right after construction on the one-line text `text` whose tokens are `toks`,
with an empty collector; `Eof` sits just past the text. -/
def parser_on (text : String) (toks : List Token) : Parser :=
  Parser.init text
    { rest := toks, eofPos := { index := text.length, line := 1, column := text.length + 1 } }
    {}

/-! ## Flat objects as token streams -/

/-- The parser whose members are the given ones: current token `t`, tokens `ts` still in the
lexer. -/
def state (text : String) (eofPos : Position) (consumed : Nat) (errors : List Error)
    (t : Token) (ts : List Token) : Parser :=
  { text := text,
    lexer := { rest := ts, eofPos := eofPos, consumed := consumed },
    errors := { errors := errors },
    current := t }

/-- The token kinds of the scalar rules of `parse`. -/
def is_scalar (t : TokenType) : Bool :=
  t = TokenType.Null || t = TokenType.True || t = TokenType.False || t = TokenType.Int
    || t = TokenType.Decimal || t = TokenType.String

/-- The node that `parse` returns on the scalar token `t` of the text `text` taken alone;
`none` when `t` is no scalar token or its rule terminates the process. -/
def scalar_node (env : Env) (text : String) (t : Token) : Option Node :=
  if is_scalar t.type then
    match parse env 1 (state text t.pos 0 [] t []) with
    | Result.ret (node, _) => some node
    | _ => none
  else none

/-- The tokens of one object field as they stand in the source: the key, the colon if there is
one, the value token, and the comma after the field if there is one. -/
structure Field where
  key : Token
  colon : Option Token
  value : Token
  comma : Option Token
deriving DecidableEq, Repr

/-- The key of a field: what `string_literal_value` makes of its key token. -/
def field_name (text : String) (f : Field) : String :=
  (string_literal_value text f.key).getD ""

/-- The value of a field: the node of its value token. -/
def field_node (env : Env) (text : String) (f : Field) : Node :=
  (scalar_node env text f.value).getD Node.Error

/-- The successive calls of `emplace` for the entries `kvs`, on the map `acc`. -/
def emplace_all (acc : List (String × Node)) (kvs : List (String × Node)) :
    List (String × Node) :=
  kvs.foldl (fun a kv => emplace a kv.1 kv.2) acc

/-- The keys and values of a sequence of fields, in source order. -/
def entries (env : Env) (text : String) (fs : List Field) : List (String × Node) :=
  fs.map (fun f => (field_name text f, field_node env text f))

/-- The text `\x7b"a" 1\x7d`. -/
def nocolon_text : String := "\x7b\"a\" 1\x7d"

/-- The token has a node if it is a scalar token: its rule does not terminate the process. -/
def token_ok (env : Env) (text : String) (t : Token) : Bool :=
  !is_scalar t.type || (scalar_node env text t).isSome

/-- The token is neither `[` nor `\x7b`, and has a node if it is a scalar token. -/
def flat_token (env : Env) (text : String) (t : Token) : Bool :=
  t.type ≠ TokenType.LBracket && t.type ≠ TokenType.LBrace && token_ok env text t

/-- The current token and all the tokens still in the lexer are flat. -/
def flat (env : Env) (p : Parser) : Prop :=
  flat_token env p.text p.current = true ∧ ∀ u ∈ p.lexer.rest, flat_token env p.text u = true

/-- The number of tokens not yet consumed: those still in the lexer, and the current one
unless it is `Eof`. -/
def remaining (p : Parser) : Nat :=
  p.lexer.rest.length + (if p.current.type = TokenType.Eof then 0 else 1)

/-- The text `\x7b,"a"::1]\x7d`. -/
def garbled_text : String := "\x7b,\"a\"::1]\x7d"

/-- The tokens of `garbled_text` after the first. -/
def garbled_tokens : List Token :=
  [tok TokenType.Comma 1 1, tok TokenType.String 2 3, tok TokenType.Colon 5 1,
   tok TokenType.Colon 6 1, tok TokenType.Int 7 1, tok TokenType.RBracket 8 1,
   tok TokenType.RBrace 9 1]

/-! ## Well-formed nested objects as token streams -/

mutual
/-- Following claim C17: a value of a well-formed object is a single scalar token or is itself
an object `\x7b fields \x7d`. -/
inductive Doc where
  | scalar (t : Token)
  | object (opening : Token) (fields : Fields) (close : Token)
/-- Following claim C17: the fields `k1 : v1 , ... , kn : vn` of an object, at least one. -/
inductive Fields where
  | last (key colon : Token) (value : Doc)
  | more (key colon : Token) (value : Doc) (comma : Token) (rest : Fields)
end

mutual
/-- The tokens of a value, in source order. -/
def Doc.tokens : Doc → List Token
  | Doc.scalar t => [t]
  | Doc.object opening fields close => opening :: (fields.tokens ++ [close])
/-- The tokens of a sequence of fields, in source order. -/
def Fields.tokens : Fields → List Token
  | Fields.last key colon value => key :: colon :: value.tokens
  | Fields.more key colon value comma rest =>
    key :: colon :: (value.tokens ++ comma :: rest.tokens)
end

mutual
/-- The node a value stands for: the node of its scalar token, or the `Object` of the keys
and values of its fields. -/
def Doc.node (env : Env) (text : String) : Doc → Node
  | Doc.scalar t => (scalar_node env text t).getD Node.Error
  | Doc.object _ fields _ => Node.Object (fields.entries env text)
/-- The keys (the interiors of the key tokens) and values of a sequence of fields, in source
order. -/
def Fields.entries (env : Env) (text : String) : Fields → List (String × Node)
  | Fields.last key _ value =>
    [((string_literal_value text key).getD "", value.node env text)]
  | Fields.more key _ value _ rest =>
    ((string_literal_value text key).getD "", value.node env text) :: rest.entries env text
end

mutual
/-- The tokens of a value have the kinds the claim names: a scalar is a `Null`, `True`,
`False`, `Int` or `String` token that has a node; an object opens with `\x7b`, closes with
`\x7d`, and its keys are pairwise distinct. -/
def Doc.ok (env : Env) (text : String) : Doc → Bool
  | Doc.scalar t =>
    (t.type = TokenType.Null || t.type = TokenType.True || t.type = TokenType.False
      || t.type = TokenType.Int || t.type = TokenType.String)
    && (scalar_node env text t).isSome
  | Doc.object opening fields close =>
    opening.type = TokenType.LBrace && fields.ok env text
      && decide ((fields.entries env text).map Prod.fst).Nodup
      && close.type = TokenType.RBrace
/-- The tokens of the fields have the kinds of fields: `String` keys whose interior can be
taken, `Colon`, a well-formed value, `Comma` between fields. -/
def Fields.ok (env : Env) (text : String) : Fields → Bool
  | Fields.last key colon value =>
    key.type = TokenType.String && (string_literal_value text key).isSome
      && colon.type = TokenType.Colon && value.ok env text
  | Fields.more key colon value comma rest =>
    key.type = TokenType.String && (string_literal_value text key).isSome
      && colon.type = TokenType.Colon && value.ok env text
      && comma.type = TokenType.Comma && rest.ok env text
end

/-- The text of every `Int` and `Decimal` token converts (`std::stoll`, `std::stod` do not
throw) and every `String` token starts inside the text (`substr` does not throw): the rule of
no scalar token terminates the process. -/
def convertible (env : Env) (text : String) (t : Token) : Bool :=
  match t.type with
  | TokenType.Int => ((t.value text).bind stoll).isSome
  | TokenType.Decimal => ((t.value text).bind env.stod).isSome
  | TokenType.String => (string_literal_value text t).isSome
  | _ => true

/-- The text `\x7b"a": 9223372036854775808\x7d`: the number is `2 ^ 63`, one more than the
largest `int64_t`. -/
def overflow_text : String := "\x7b\"a\": 9223372036854775808\x7d"

/-- The tokens of `overflow_text` after the first. -/
def overflow_tokens : List Token :=
  [tok TokenType.String 1 3, tok TokenType.Colon 4 1, tok TokenType.Int 6 19,
   tok TokenType.RBrace 25 1]

/-! ## The array rule never returns -/

/-- One unfolding of `parse`. -/
lemma parse_succ (env : Env) (fuel : Nat) (p : Parser) :
    parse env (fuel + 1) p =
      match p.current.type with
      | TokenType.Null => parse_null p
      | TokenType.False => parse_bool p
      | TokenType.True => parse_bool p
      | TokenType.Int => parse_int p
      | TokenType.Decimal => parse_decimal env p
      | TokenType.String => parse_string p
      | TokenType.LBracket => parse_array env (parse env fuel) fuel p
      | TokenType.LBrace => parse_object env (parse env fuel) fuel p
      | _ => Result.ret (Node.Error, step (add_unexpected_error env "value" p)) := rfl

/-- On a parser whose current token is `[`, `parse` uses up every budget: `parse_array` does
not consume the bracket, so its first loop round calls `parse` on the same token again. -/
lemma parse_LBracket (env : Env) (fuel : Nat) (p : Parser)
    (h : p.current.type = TokenType.LBracket) : parse env fuel p = Result.outOfFuel := by
  induction fuel with
  | zero => rfl
  | succ n ih =>
    have hd : done p = false := by simp [done, h]
    rw [parse_succ]
    simp only [h]
    cases n with
    | zero => simp [parse_array, parse_array_loop]
    | succ m => simp [parse_array, parse_array_loop, hd, ih]

/-- On a parser whose current token is `\x7b` the field loop of `parse_object` uses up every
budget: the key-expected branch reports, skips nothing, and tests the same token again. -/
lemma parse_object_loop_LBrace (env : Env) (parse : Parser → Result (Node × Parser))
    (fuel : Nat) (p : Parser) (fields : List (String × Node))
    (h : p.current.type = TokenType.LBrace) :
    parse_object_loop env parse fuel p fields = Result.outOfFuel := by
  induction fuel generalizing p with
  | zero => rfl
  | succ n ih =>
    have hd : done p = false := by simp [done, h]
    cases n with
    | zero => simp [parse_object_loop, hd, h, skip_loop]
    | succ m =>
      have hs : skip_loop (m + 1) (add_unexpected_error env "String or '\x7d'" p)
          = Result.ret (add_unexpected_error env "String or '\x7d'" p) := by
        simp [skip_loop, add_unexpected_error, h]
      rw [parse_object_loop]
      simp only [hd, h, hs]
      simpa using ih _ (by simp [add_unexpected_error, h])

/-- C1 (termination), evaluated at the inputs where the code does not terminate: whatever the
tokens after it, an input that starts with `[` makes `parse` recurse without end, and an input
that starts with two `\x7b` makes the field loop of `parse_object` spin without end; no budget
of nested calls and loop rounds lets `parse` return. -/
theorem parse_does_not_terminate (env : Env) (fuel : Nat) (text : String)
    (pos pos2 : Position) (len len2 : Nat) (rest : List Token) (eofPos : Position)
    (errors : ErrorCollector) :
    parse env fuel
        (Parser.init text
          { rest := { type := TokenType.LBracket, pos := pos, length := len } :: rest,
            eofPos := eofPos } errors) = Result.outOfFuel
    ∧ parse env fuel
        (Parser.init text
          { rest := { type := TokenType.LBrace, pos := pos, length := len }
              :: { type := TokenType.LBrace, pos := pos2, length := len2 } :: rest,
            eofPos := eofPos } errors) = Result.outOfFuel := by
  refine ⟨parse_LBracket env fuel _ rfl, ?_⟩
  cases fuel with
  | zero => rfl
  | succ n =>
    have h := parse_object_loop_LBrace env (parse env n) n
      (step (Parser.init text
          { rest := { type := TokenType.LBrace, pos := pos, length := len }
              :: { type := TokenType.LBrace, pos := pos2, length := len2 } :: rest,
            eofPos := eofPos } errors)) [] rfl
    simp only [parse, Parser.init, Lexer.next, parse_object]
    simp only [Parser.init, Lexer.next] at h
    rw [h]

/-! ## More fuel never changes a result -/

/-- A round more lets `skip_loop` return what it returned. -/
lemma skip_loop_mono (fuel : Nat) (p : Parser) (x : Result Parser)
    (hx : x ≠ Result.outOfFuel) (h : skip_loop fuel p = x) : skip_loop (fuel + 1) p = x := by
  induction fuel generalizing p with
  | zero => exact absurd h.symm hx
  | succ n ih =>
    rw [skip_loop] at h ⊢
    split
    · rename_i hc
      rw [if_pos hc] at h
      exact ih _ h
    · rename_i hc
      rw [if_neg hc] at h
      exact h

/-- A round more, on a `parse` that returns at least what the old one returned, lets the
array loop return what it returned. -/
lemma parse_array_loop_mono (env : Env) (f g : Parser → Result (Node × Parser))
    (hfg : ∀ q y, y ≠ Result.outOfFuel → f q = y → g q = y)
    (fuel : Nat) (p : Parser) (array : List Node) (x : Result (List Node × Parser))
    (hx : x ≠ Result.outOfFuel) (h : parse_array_loop env f fuel p array = x) :
    parse_array_loop env g (fuel + 1) p array = x := by
  induction fuel generalizing p array with
  | zero => exact absurd h.symm hx
  | succ n ih =>
    rw [parse_array_loop] at h ⊢
    by_cases hd : done p = true
    · simpa [hd] using h
    · simp only [hd] at h ⊢
      cases hf : f p with
      | terminated =>
        rw [hfg p _ (by simp) hf]
        simpa [hf] using h
      | outOfFuel =>
        rw [hf] at h
        exact absurd h.symm hx
      | ret r =>
        rw [hfg p _ (by simp) hf]
        rw [hf] at h
        obtain ⟨value, p1⟩ := r
        simp only at h ⊢
        by_cases hc : p1.current.type = TokenType.RBracket
        · simpa [hc] using h
        · rw [if_neg hc] at h ⊢
          exact ih _ _ h

/-- A round more, on a `parse` that returns at least what the old one returned, lets the
field loop return what it returned. -/
lemma parse_object_loop_mono (env : Env) (f g : Parser → Result (Node × Parser))
    (hfg : ∀ q y, y ≠ Result.outOfFuel → f q = y → g q = y)
    (fuel : Nat) (p : Parser) (fields : List (String × Node))
    (x : Result (List (String × Node) × Parser))
    (hx : x ≠ Result.outOfFuel) (h : parse_object_loop env f fuel p fields = x) :
    parse_object_loop env g (fuel + 1) p fields = x := by
  induction fuel generalizing p fields with
  | zero => exact absurd h.symm hx
  | succ n ih =>
    rw [parse_object_loop] at h ⊢
    by_cases hd : done p = true
    · simpa [hd] using h
    · simp only [hd] at h ⊢
      by_cases hs : p.current.type ≠ TokenType.String
      · simp only [if_pos hs] at h ⊢
        cases hk : skip_loop n (add_unexpected_error env "String or '\x7d'" p) with
        | terminated =>
          rw [skip_loop_mono n _ _ (by simp) hk]
          simpa [hk] using h
        | outOfFuel =>
          rw [hk] at h
          exact absurd h.symm hx
        | ret p1 =>
          rw [skip_loop_mono n _ _ (by simp) hk]
          rw [hk] at h
          exact ih _ _ h
      · simp only [if_neg hs] at h ⊢
        cases hv : string_literal_value p.text p.current with
        | none => simpa [hv] using h
        | some key =>
          simp only [hv] at h ⊢
          generalize hq : (if (step p).current.type ≠ TokenType.Colon then
              add_unexpected_error env "':'" (step p) else step (step p)) = q at h ⊢
          cases hf : f q with
          | terminated =>
            rw [hfg q _ (by simp) hf]
            simpa [hf] using h
          | outOfFuel =>
            rw [hf] at h
            exact absurd h.symm hx
          | ret r =>
            rw [hfg q _ (by simp) hf]
            rw [hf] at h
            obtain ⟨value, p3⟩ := r
            simp only at h ⊢
            by_cases hc : p3.current.type = TokenType.RBrace
            · simpa [hc] using h
            · rw [if_neg hc] at h ⊢
              exact ih _ _ h

/-- One unit of fuel more lets `parse` return what it returned. -/
lemma parse_mono_succ (env : Env) (fuel : Nat) :
    ∀ (p : Parser) (x : Result (Node × Parser)), x ≠ Result.outOfFuel →
      parse env fuel p = x → parse env (fuel + 1) p = x := by
  induction fuel with
  | zero =>
    intro p x hx h
    exact absurd h.symm hx
  | succ n ih =>
    intro p x hx h
    rw [parse_succ] at h ⊢
    split <;> rename_i hty <;> simp only [hty] at h
    all_goals try exact h
    · -- the array rule
      unfold parse_array at h ⊢
      cases hl : parse_array_loop env (parse env n) n p [] with
      | terminated =>
        rw [parse_array_loop_mono env _ _ ih n p [] _ (by simp) hl]
        simpa [hl] using h
      | outOfFuel =>
        rw [hl] at h
        exact absurd h.symm hx
      | ret r =>
        rw [parse_array_loop_mono env _ _ ih n p [] _ (by simp) hl]
        simpa [hl] using h
    · -- the object rule
      unfold parse_object at h ⊢
      cases hl : parse_object_loop env (parse env n) n (step p) [] with
      | terminated =>
        rw [parse_object_loop_mono env _ _ ih n _ [] _ (by simp) hl]
        simpa [hl] using h
      | outOfFuel =>
        rw [hl] at h
        exact absurd h.symm hx
      | ret r =>
        rw [parse_object_loop_mono env _ _ ih n _ [] _ (by simp) hl]
        simpa [hl] using h

/-- Any larger fuel lets `parse` return what it returned. -/
lemma parse_mono (env : Env) (fuel extra : Nat) (p : Parser) (x : Result (Node × Parser))
    (hx : x ≠ Result.outOfFuel) (h : parse env fuel p = x) :
    parse env (fuel + extra) p = x := by
  induction extra with
  | zero => exact h
  | succ k ih => exact parse_mono_succ env (fuel + k) p x hx ih

/-! ## Claims about single tokens -/

/-- C2 (round trip on well-formed input), evaluated at two valid documents: on `[1, 2]` no
budget lets `parse` return, and on the empty object `\x7b\x7d` it returns an empty `Object`
together with two diagnostics instead of none. -/
theorem valid_documents_not_parsed_cleanly (fuel : Nat) :
    parse demo_env fuel
        (parser_on "[1, 2]"
          [tok TokenType.LBracket 0 1, tok TokenType.Int 1 1, tok TokenType.Comma 2 1,
           tok TokenType.Int 4 1, tok TokenType.RBracket 5 1]) = Result.outOfFuel
    ∧ parse demo_env (4 + fuel)
        (parser_on "\x7b\x7d" [tok TokenType.LBrace 0 1, tok TokenType.RBrace 1 1])
      = Result.ret (Node.Object [],
          { text := "\x7b\x7d",
            lexer := { rest := [], eofPos := { index := 2, line := 1, column := 3 },
                       consumed := 4 },
            errors := { errors :=
              [{ pos := { index := 1, line := 1, column := 2 },
                 message := "expected String or '\x7d', got \x7d" },
               { pos := { index := 2, line := 1, column := 3 },
                 message := "expected '\x7d', got Eof" }] },
            current := { type := TokenType.Eof, pos := { index := 2, line := 1, column := 3 },
                         length := 0 } }) :=
  ⟨parse_LBracket demo_env fuel _ rfl, parse_mono demo_env 4 fuel _ _ (by simp) rfl⟩

/-- C3 (value-dispatch error recovery): when the current token starts no value, `parse`
returns an `Error` node, appends exactly one diagnostic, "expected value, got <kind>" at the
current token's position, and consumes exactly one token: the new current token is the
lexer's next one and nothing else changes. -/
theorem parse_default_reports_and_steps (env : Env) (fuel : Nat) (p : Parser)
    (h : p.current.type ∉ [TokenType.Null, TokenType.True, TokenType.False, TokenType.Int,
      TokenType.Decimal, TokenType.String, TokenType.LBracket, TokenType.LBrace]) :
    ∃ p1, parse env (fuel + 1) p = Result.ret (Node.Error, p1)
      ∧ p1.errors.errors = p.errors.errors ++
          [{ pos := p.current.pos,
             message := "expected value, got " ++ env.token_type_value p.current.type }]
      ∧ p1.current = p.lexer.next.1
      ∧ p1.lexer = p.lexer.next.2
      ∧ p1.lexer.consumed = p.lexer.consumed + 1
      ∧ p1.text = p.text := by
  refine ⟨step (add_unexpected_error env "value" p), ?_, rfl, rfl, rfl, ?_, rfl⟩
  · rw [parse_succ]
    split <;> simp_all
  · simp only [step, add_unexpected_error, Lexer.next]
    cases p.lexer.rest <;> rfl

/-- The empty input: the current token is `Eof`, and `parse` yields an `Error` node, one
diagnostic and one further token. -/
theorem parse_default_reports_and_steps_witness :
    (parser_on "" []).current.type ∉ [TokenType.Null, TokenType.True, TokenType.False,
      TokenType.Int, TokenType.Decimal, TokenType.String, TokenType.LBracket, TokenType.LBrace]
    ∧ ∃ p1, parse demo_env (0 + 1) (parser_on "" []) = Result.ret (Node.Error, p1)
      ∧ p1.errors.errors = (parser_on "" []).errors.errors ++
          [{ pos := (parser_on "" []).current.pos,
             message := "expected value, got "
               ++ demo_env.token_type_value (parser_on "" []).current.type }]
      ∧ p1.current = (parser_on "" []).lexer.next.1
      ∧ p1.lexer = (parser_on "" []).lexer.next.2
      ∧ p1.lexer.consumed = (parser_on "" []).lexer.consumed + 1
      ∧ p1.text = (parser_on "" []).text :=
  ⟨by decide, parse_default_reports_and_steps demo_env 0 (parser_on "" []) (by decide)⟩

/-- C8 (keyword scalars): on a `Null`, `True` or `False` token `parse` returns `Null`,
`Bool(true)` or `Bool(false)` respectively, consumes exactly one token and leaves the
diagnostics as they were. -/
theorem parse_keyword_scalar (env : Env) (fuel : Nat) (p : Parser)
    (h : p.current.type ∈ [TokenType.Null, TokenType.True, TokenType.False]) :
    ∃ node p1, parse env (fuel + 1) p = Result.ret (node, p1)
      ∧ (p.current.type = TokenType.Null → node = Node.Null)
      ∧ (p.current.type = TokenType.True → node = Node.Bool true)
      ∧ (p.current.type = TokenType.False → node = Node.Bool false)
      ∧ p1.errors = p.errors
      ∧ p1.current = p.lexer.next.1
      ∧ p1.lexer = p.lexer.next.2
      ∧ p1.lexer.consumed = p.lexer.consumed + 1
      ∧ p1.text = p.text := by
  have hc : (step p).lexer.consumed = p.lexer.consumed + 1 := by
    simp only [step, Lexer.next]
    cases p.lexer.rest <;> rfl
  simp only [List.mem_cons, List.mem_singleton, List.not_mem_nil, or_false] at h
  rcases h with h | h | h
  · exact ⟨Node.Null, step p, by rw [parse_succ]; simp only [h, parse_null],
      fun _ => rfl, by simp [h], by simp [h], rfl, rfl, rfl, hc, rfl⟩
  · exact ⟨Node.Bool true, step p, by rw [parse_succ]; simp [h, parse_bool],
      by simp [h], fun _ => rfl, by simp [h], rfl, rfl, rfl, hc, rfl⟩
  · exact ⟨Node.Bool false, step p, by rw [parse_succ]; simp [h, parse_bool],
      by simp [h], by simp [h], fun _ => rfl, rfl, rfl, rfl, hc, rfl⟩

/-- The input `true`: `parse` returns `Bool(true)`. -/
theorem parse_keyword_scalar_witness :
    (parser_on "true" [tok TokenType.True 0 4]).current.type
      ∈ [TokenType.Null, TokenType.True, TokenType.False]
    ∧ ∃ node p1, parse demo_env (0 + 1) (parser_on "true" [tok TokenType.True 0 4])
        = Result.ret (node, p1)
      ∧ ((parser_on "true" [tok TokenType.True 0 4]).current.type = TokenType.Null
          → node = Node.Null)
      ∧ ((parser_on "true" [tok TokenType.True 0 4]).current.type = TokenType.True
          → node = Node.Bool true)
      ∧ ((parser_on "true" [tok TokenType.True 0 4]).current.type = TokenType.False
          → node = Node.Bool false)
      ∧ p1.errors = (parser_on "true" [tok TokenType.True 0 4]).errors
      ∧ p1.current = (parser_on "true" [tok TokenType.True 0 4]).lexer.next.1
      ∧ p1.lexer = (parser_on "true" [tok TokenType.True 0 4]).lexer.next.2
      ∧ p1.lexer.consumed = (parser_on "true" [tok TokenType.True 0 4]).lexer.consumed + 1
      ∧ p1.text = (parser_on "true" [tok TokenType.True 0 4]).text :=
  ⟨by decide, parse_keyword_scalar demo_env 0 _ (by decide)⟩

/-! ## Integer literals -/

/-- The digit characters are read back as their values. -/
lemma digitChar_facts (k : Nat) (hk : k < 10) :
    (Nat.digitChar k).isDigit = true ∧ digit_value (Nat.digitChar k) = k
      ∧ isspace (Nat.digitChar k) = false ∧ Nat.digitChar k ≠ '-' ∧ Nat.digitChar k ≠ '+' := by
  interval_cases k <;> decide

/-- The accumulation of `stoll` over a text followed by one more digit. -/
lemma foldl_digits_append (l : List Char) (c : Char) :
    (l ++ [c]).foldl (fun a c => 10 * a + digit_value c) 0
      = 10 * l.foldl (fun a c => 10 * a + digit_value c) 0 + digit_value c := by
  simp [List.foldl_append]

/-- What `Nat.toDigitsCore` puts in front of its accumulator: a non-empty run of digits that
reads back as the number. -/
lemma toDigitsCore_spec (fuel : Nat) : ∀ (n : Nat) (acc : List Char), n < fuel →
    ∃ l : List Char, Nat.toDigitsCore 10 fuel n acc = l ++ acc ∧ l ≠ []
      ∧ (∀ c ∈ l, c.isDigit = true)
      ∧ l.foldl (fun a c => 10 * a + digit_value c) 0 = n
      ∧ (∀ c, l.head? = some c → isspace c = false ∧ c ≠ '-' ∧ c ≠ '+') := by
  induction fuel with
  | zero => intro n acc h; omega
  | succ f ih =>
    intro n acc h
    have hmod : n % 10 < 10 := Nat.mod_lt _ (by decide)
    obtain ⟨hd1, hd2, hd3, hd4, hd5⟩ := digitChar_facts (n % 10) hmod
    rw [Nat.toDigitsCore]
    by_cases h0 : n / 10 = 0
    · simp only [h0, if_true]
      have hn : n % 10 = n := by omega
      refine ⟨[Nat.digitChar (n % 10)], rfl, by simp, ?_, ?_, ?_⟩
      · intro c hc
        simp only [List.mem_singleton] at hc
        rw [hc]; exact hd1
      · simp only [List.foldl_cons, List.foldl_nil, hd2]
        omega
      · intro c hc
        simp only [List.head?_cons, Option.some.injEq] at hc
        rw [← hc]; exact ⟨hd3, hd4, hd5⟩
    · simp only [h0, if_false]
      obtain ⟨l, hl, hne, hdig, hval, hhead⟩ := ih (n / 10) (Nat.digitChar (n % 10) :: acc)
        (by omega)
      refine ⟨l ++ [Nat.digitChar (n % 10)], by simp [hl], by simp, ?_, ?_, ?_⟩
      · intro c hc
        simp only [List.mem_append, List.mem_singleton] at hc
        rcases hc with hc | hc
        · exact hdig c hc
        · rw [hc]; exact hd1
      · rw [foldl_digits_append, hval, hd2]
        omega
      · intro c hc
        cases l with
        | nil => exact absurd rfl hne
        | cons a t =>
          simp only [List.cons_append, List.head?_cons, Option.some.injEq] at hc
          exact hhead c (by simp [hc])

/-- The decimal rendering of a natural number: a non-empty run of digits that reads back as
the number. -/
lemma repr_spec (m : Nat) :
    (Nat.repr m).data ≠ [] ∧ (∀ c ∈ (Nat.repr m).data, c.isDigit = true)
      ∧ (Nat.repr m).data.foldl (fun a c => 10 * a + digit_value c) 0 = m
      ∧ (∀ c, (Nat.repr m).data.head? = some c → isspace c = false ∧ c ≠ '-' ∧ c ≠ '+') := by
  obtain ⟨l, hl, hne, hdig, hval, hhead⟩ := toDigitsCore_spec (m + 1) m [] (by omega)
  have hd : (Nat.repr m).data = l := by
    simp [Nat.repr, Nat.toDigits, hl, List.asString]
  rw [hd]
  exact ⟨hne, hdig, hval, hhead⟩

/-- The conversion `stoll` of a run of digits. -/
lemma stoll_digits (l : List Char) (hne : l ≠ [])
    (hdig : ∀ c ∈ l, c.isDigit = true)
    (hhead : ∀ c, l.head? = some c → isspace c = false ∧ c ≠ '-' ∧ c ≠ '+')
    (hrange : ((l.foldl (fun a c => 10 * a + digit_value c) 0 : Nat) : Int) < (2 : Int) ^ 63) :
    stoll ⟨l⟩ = some ((l.foldl (fun a c => 10 * a + digit_value c) 0 : Nat) : Int) := by
  have htake : l.takeWhile Char.isDigit = l := by
    rw [List.takeWhile_eq_self_iff]
    exact hdig
  cases l with
  | nil => exact absurd rfl hne
  | cons a t =>
    obtain ⟨h1, h2, h3⟩ := hhead a rfl
    have hdrop : (a :: t).dropWhile isspace = a :: t := by simp [List.dropWhile, h1]
    have hlo : -(2 : Int) ^ 63 ≤
        ((List.foldl (fun a c => 10 * a + digit_value c) 0 (a :: t) : Nat) : Int) := by
      have : (0 : Int) ≤
        ((List.foldl (fun a c => 10 * a + digit_value c) 0 (a :: t) : Nat) : Int) :=
        Int.ofNat_nonneg _
      omega
    unfold stoll
    simp only [hdrop, List.head?_cons, Option.some.injEq, h2, h3, or_self, if_false, htake,
      decide_False, Bool.false_eq_true, hlo, hrange, and_self, if_true]
    simp

/-- The conversion `stoll` of a minus sign followed by a run of digits. -/
lemma stoll_minus_digits (l : List Char) (hne : l ≠ [])
    (hdig : ∀ c ∈ l, c.isDigit = true)
    (hrange : -(2 : Int) ^ 63 ≤
      -((l.foldl (fun a c => 10 * a + digit_value c) 0 : Nat) : Int)) :
    stoll ⟨'-' :: l⟩ = some (-((l.foldl (fun a c => 10 * a + digit_value c) 0 : Nat) : Int)) := by
  have htake : l.takeWhile Char.isDigit = l := by
    rw [List.takeWhile_eq_self_iff]
    exact hdig
  have hdrop : ('-' :: l).dropWhile isspace = '-' :: l := by
    have hsp : isspace '-' = false := by decide
    simp [List.dropWhile, hsp]
  have hhi : -((l.foldl (fun a c => 10 * a + digit_value c) 0 : Nat) : Int) < (2 : Int) ^ 63 := by
    have : (0 : Int) ≤ ((List.foldl (fun a c => 10 * a + digit_value c) 0 l : Nat) : Int) :=
      Int.ofNat_nonneg _
    omega
  unfold stoll
  simp only [hdrop, List.head?_cons, true_or, if_true, List.tail_cons, htake, decide_True,
    hne, if_false, hrange, hhi, and_self]

/-- The conversion `stoll` reads the decimal rendering of an `int64_t` back as that number. -/
lemma stoll_toString (n : Int) (hlo : -(2 : Int) ^ 63 ≤ n) (hhi : n < (2 : Int) ^ 63) :
    stoll (toString n) = some n := by
  cases n with
  | ofNat m =>
    obtain ⟨hne, hdig, hval, hhead⟩ := repr_spec m
    have h := stoll_digits (Nat.repr m).data hne hdig hhead (by rw [hval]; exact hhi)
    rw [hval] at h
    exact h
  | negSucc m =>
    obtain ⟨hne, hdig, hval, -⟩ := repr_spec (m + 1)
    have h := stoll_minus_digits (Nat.repr (m + 1)).data hne hdig (by rw [hval]; exact hlo)
    rw [hval] at h
    exact h

/-- What `step` does to the lexer's count of handed-out tokens. -/
lemma step_consumed (p : Parser) : (step p).lexer.consumed = p.lexer.consumed + 1 := by
  simp only [step, Lexer.next]
  cases p.lexer.rest <;> rfl

/-- C9 (integer fidelity): for an `int64_t` value `n`, on an `Int` token whose source slice
(the token's length at the token's index) is the decimal rendering of `n`, `parse` returns
`Int(n)`, consumes exactly one token and leaves the diagnostics as they were. -/
theorem parse_int_fidelity (env : Env) (fuel : Nat) (p : Parser) (n : Int)
    (hlo : -(2 : Int) ^ 63 ≤ n) (hhi : n < (2 : Int) ^ 63)
    (ht : p.current.type = TokenType.Int)
    (hidx : p.current.pos.index ≤ p.text.length)
    (hslice : (p.text.data.drop p.current.pos.index).take p.current.length = (toString n).data) :
    ∃ p1, parse env (fuel + 1) p = Result.ret (Node.Int n, p1)
      ∧ p1.errors = p.errors
      ∧ p1.current = p.lexer.next.1
      ∧ p1.lexer = p.lexer.next.2
      ∧ p1.lexer.consumed = p.lexer.consumed + 1
      ∧ p1.text = p.text := by
  refine ⟨step p, ?_, rfl, rfl, rfl, step_consumed p, rfl⟩
  have hv : p.current.value p.text = some (toString n) := by
    simp only [Token.value, Position.value, substr, hslice]
    rw [if_neg (by omega)]
  rw [parse_succ]
  simp only [ht, parse_int, hv, Option.some_bind, stoll_toString n hlo hhi]

/-- The input `42`: `parse` returns `Int(42)`. -/
theorem parse_int_fidelity_witness :
    (-(2 : Int) ^ 63 ≤ 42 ∧ (42 : Int) < (2 : Int) ^ 63
      ∧ (parser_on "42" [tok TokenType.Int 0 2]).current.type = TokenType.Int
      ∧ (parser_on "42" [tok TokenType.Int 0 2]).current.pos.index
          ≤ (parser_on "42" [tok TokenType.Int 0 2]).text.length
      ∧ ((parser_on "42" [tok TokenType.Int 0 2]).text.data.drop
            (parser_on "42" [tok TokenType.Int 0 2]).current.pos.index).take
          (parser_on "42" [tok TokenType.Int 0 2]).current.length = (toString (42 : Int)).data)
    ∧ ∃ p1, parse demo_env (0 + 1) (parser_on "42" [tok TokenType.Int 0 2])
        = Result.ret (Node.Int 42, p1)
      ∧ p1.errors = (parser_on "42" [tok TokenType.Int 0 2]).errors
      ∧ p1.current = (parser_on "42" [tok TokenType.Int 0 2]).lexer.next.1
      ∧ p1.lexer = (parser_on "42" [tok TokenType.Int 0 2]).lexer.next.2
      ∧ p1.lexer.consumed = (parser_on "42" [tok TokenType.Int 0 2]).lexer.consumed + 1
      ∧ p1.text = (parser_on "42" [tok TokenType.Int 0 2]).text :=
  ⟨⟨by decide, by decide, by decide, by decide, by decide⟩,
    parse_int_fidelity demo_env 0 (parser_on "42" [tok TokenType.Int 0 2]) 42
      (by decide) (by decide) (by decide) (by decide) (by decide)⟩

/-! ## String literals -/

/-- The interior of a string token that lies inside the text: `string_literal_value` returns
the `length - 2` characters after the token's first one. -/
lemma string_literal_value_inside (text : String) (t : Token) (hlen : 2 ≤ t.length)
    (hin : t.pos.index + t.length ≤ text.length) (hsz : text.length < SIZE_MOD) :
    string_literal_value text t
      = some ⟨(text.data.drop (t.pos.index + 1)).take (t.length - 2)⟩ := by
  have hM : SIZE_MOD = 18446744073709551616 := by norm_num [SIZE_MOD]
  rw [hM] at hsz
  have h1 : (t.pos.index + 1) % SIZE_MOD = t.pos.index + 1 := by
    rw [hM]; omega
  have h2 : (t.length + SIZE_MOD - 2) % SIZE_MOD = t.length - 2 := by
    rw [hM]; omega
  simp only [string_literal_value, substr, h1, h2]
  rw [if_neg (by omega)]

/-- C10 (string fidelity): on a `String` token of length at least 2 that lies inside the
text, `parse` returns `String(v)` where `v` is the `length - 2` characters of the source that
follow the token's first character, each copied as it is; it consumes exactly one token and
leaves the diagnostics as they were. The text is shorter than `2 ^ 64`, as every
`std::string` is. -/
theorem parse_string_fidelity (env : Env) (fuel : Nat) (p : Parser)
    (ht : p.current.type = TokenType.String)
    (hlen : 2 ≤ p.current.length)
    (hin : p.current.pos.index + p.current.length ≤ p.text.length)
    (hsz : p.text.length < SIZE_MOD) :
    ∃ v p1, parse env (fuel + 1) p = Result.ret (Node.String v, p1)
      ∧ v.length = p.current.length - 2
      ∧ (∀ i, i < p.current.length - 2 →
          v.data[i]? = p.text.data[p.current.pos.index + 1 + i]?)
      ∧ p1.errors = p.errors
      ∧ p1.current = p.lexer.next.1
      ∧ p1.lexer = p.lexer.next.2
      ∧ p1.lexer.consumed = p.lexer.consumed + 1
      ∧ p1.text = p.text := by
  refine ⟨⟨(p.text.data.drop (p.current.pos.index + 1)).take (p.current.length - 2)⟩, step p,
    ?_, ?_, ?_, rfl, rfl, rfl, step_consumed p, rfl⟩
  · rw [parse_succ]
    simp only [ht, parse_string, string_literal_value_inside p.text p.current hlen hin hsz]
  · have : p.text.data.length = p.text.length := rfl
    simp only [String.length, List.length_take, List.length_drop]
    omega
  · intro i hi
    simp [List.getElem?_take, List.getElem?_drop, hi]

/-- The input `"a\b"`: `parse` returns the three characters between the quotes, the
backslash among them. -/
theorem parse_string_fidelity_witness :
    ((parser_on "\"a\\b\"" [tok TokenType.String 0 5]).current.type = TokenType.String
      ∧ 2 ≤ (parser_on "\"a\\b\"" [tok TokenType.String 0 5]).current.length
      ∧ (parser_on "\"a\\b\"" [tok TokenType.String 0 5]).current.pos.index
          + (parser_on "\"a\\b\"" [tok TokenType.String 0 5]).current.length
          ≤ (parser_on "\"a\\b\"" [tok TokenType.String 0 5]).text.length
      ∧ (parser_on "\"a\\b\"" [tok TokenType.String 0 5]).text.length < SIZE_MOD)
    ∧ ∃ v p1, parse demo_env (0 + 1) (parser_on "\"a\\b\"" [tok TokenType.String 0 5])
        = Result.ret (Node.String v, p1)
      ∧ v.length = (parser_on "\"a\\b\"" [tok TokenType.String 0 5]).current.length - 2
      ∧ (∀ i, i < (parser_on "\"a\\b\"" [tok TokenType.String 0 5]).current.length - 2 →
          v.data[i]? = (parser_on "\"a\\b\"" [tok TokenType.String 0 5]).text.data[
            (parser_on "\"a\\b\"" [tok TokenType.String 0 5]).current.pos.index + 1 + i]?)
      ∧ p1.errors = (parser_on "\"a\\b\"" [tok TokenType.String 0 5]).errors
      ∧ p1.current = (parser_on "\"a\\b\"" [tok TokenType.String 0 5]).lexer.next.1
      ∧ p1.lexer = (parser_on "\"a\\b\"" [tok TokenType.String 0 5]).lexer.next.2
      ∧ p1.lexer.consumed
          = (parser_on "\"a\\b\"" [tok TokenType.String 0 5]).lexer.consumed + 1
      ∧ p1.text = (parser_on "\"a\\b\"" [tok TokenType.String 0 5]).text :=
  ⟨⟨by decide, by decide, by decide, by decide⟩,
    parse_string_fidelity demo_env 0 (parser_on "\"a\\b\"" [tok TokenType.String 0 5])
      (by decide) (by decide) (by decide) (by decide)⟩

/-! ## Flat objects -/

/-- On a scalar token `parse` returns the token's node and consumes the token, whatever the
rest of the parser's state. -/
lemma parse_scalar (env : Env) (fuel : Nat) (p : Parser) (v : Node)
    (h : scalar_node env p.text p.current = some v) :
    parse env (fuel + 1) p = Result.ret (v, step p) := by
  unfold scalar_node at h
  rw [parse_succ] at h ⊢
  simp only [state] at h
  cases hty : p.current.type <;> simp only [hty, is_scalar] at h ⊢ <;> try simp at h
  · simp only [parse_null, Result.ret.injEq, Prod.mk.injEq] at h ⊢
    exact ⟨Option.some.inj h, trivial⟩
  · simp only [parse_bool, hty] at h ⊢
    simp at h ⊢
    exact h
  · simp only [parse_bool, hty] at h ⊢
    simp at h ⊢
    exact h
  · simp only [parse_int] at h ⊢
    cases hv : (p.current.value p.text).bind stoll with
    | none => simp [hv] at h
    | some n =>
      simp only [hv] at h ⊢
      simp at h ⊢
      exact h
  · simp only [parse_decimal] at h ⊢
    cases hv : (p.current.value p.text).bind env.stod with
    | none => simp [hv] at h
    | some n =>
      simp only [hv] at h ⊢
      simp at h ⊢
      exact h
  · simp only [parse_string] at h ⊢
    cases hv : string_literal_value p.text p.current with
    | none => simp [hv] at h
    | some n =>
      simp only [hv] at h ⊢
      simp at h ⊢
      exact h

/-- The member `step` on a parser with a token left in the lexer. -/
lemma step_state (text : String) (eofPos : Position) (c : Nat) (errs : List Error)
    (t u : Token) (ts : List Token) :
    step (state text eofPos c errs t (u :: ts)) = state text eofPos (c + 1) errs u ts := rfl

/-- C6 (array with a dangling comma), evaluated at `[1, 2,]`: no budget lets `parse` return,
so there is neither the array of `Int(1)`, `Int(2)`, `Error` nor any diagnostic. -/
theorem dangling_comma_array_never_returns (fuel : Nat) :
    parse demo_env fuel
      (parser_on "[1, 2,]"
        [tok TokenType.LBracket 0 1, tok TokenType.Int 1 1, tok TokenType.Comma 2 1,
         tok TokenType.Int 4 1, tok TokenType.Comma 5 1, tok TokenType.RBracket 6 1])
      = Result.outOfFuel :=
  parse_LBracket demo_env fuel _ rfl

/-- C7 (unterminated array), evaluated at `[1, 2`: no budget lets `parse` return, so there is
neither the array of `Int(1)`, `Int(2)` nor the diagnostic at `Eof`. -/
theorem unterminated_array_never_returns (fuel : Nat) :
    parse demo_env fuel
      (parser_on "[1, 2"
        [tok TokenType.LBracket 0 1, tok TokenType.Int 1 1, tok TokenType.Comma 2 1,
         tok TokenType.Int 4 1])
      = Result.outOfFuel :=
  parse_LBracket demo_env fuel _ rfl

/-! ## Diagnostics -/

/-- C11 (diagnostic rendering): `Error::to_string` is "error: ", the message, ", at ", the
line in decimal, ":", the column in decimal; the index of the position plays no part. -/
theorem to_string_renders_line_and_column (message : String) (index line column : Nat) :
    Error.to_string { pos := { index := index, line := line, column := column },
                      message := message }
      = "error: " ++ message ++ ", at " ++ toString line ++ ":" ++ toString column
    ∧ ∀ index2 : Nat,
        Error.to_string { pos := { index := index2, line := line, column := column },
                          message := message }
          = Error.to_string { pos := { index := index, line := line, column := column },
                              message := message } :=
  ⟨rfl, fun _ => rfl⟩

/-- The collector after `add` has been called on a fresh one for each diagnostic of `es` in
turn holds exactly `es`. -/
lemma foldl_add_errors (es : List Error) (c : ErrorCollector) :
    (es.foldl ErrorCollector.add c).errors = c.errors ++ es := by
  induction es generalizing c with
  | nil => simp
  | cons e tl ih => simp [List.foldl_cons, ih, ErrorCollector.add]

/-- C12 (collector order and emptiness): `add` puts the new diagnostic at the end and leaves
the earlier ones as they were, so a fresh collector after a sequence of calls of `add` holds
the diagnostics in the order of the calls; `contains_error` is true exactly when the sequence
is not empty, that is when `add` has been called at least once. -/
theorem collector_keeps_insertion_order (c : ErrorCollector) (e : Error) (es : List Error) :
    (c.add e).errors = c.errors ++ [e]
    ∧ (c.add e).errors.take c.errors.length = c.errors
    ∧ (c.add e).errors.length = c.errors.length + 1
    ∧ (c.contains_error = true ↔ c.errors ≠ [])
    ∧ (es.foldl ErrorCollector.add {}).errors = es
    ∧ ((es.foldl ErrorCollector.add {}).contains_error = true ↔ es ≠ []) := by
  have hf : (es.foldl ErrorCollector.add {}).errors = es := by
    rw [foldl_add_errors]
    rfl
  refine ⟨rfl, by simp [ErrorCollector.add], by simp [ErrorCollector.add], ?_, hf, ?_⟩
  · cases h : c.errors <;> simp [ErrorCollector.contains_error, h]
  · rw [ErrorCollector.contains_error, hf]
    cases es <;> simp

/-! ## Recovery steps -/

/-- More rounds let the array loop return what it returned, `parse` being the same. -/
lemma parse_array_loop_mono_add (env : Env) (f : Parser → Result (Node × Parser))
    (fuel extra : Nat) (p : Parser) (array : List Node) (x : Result (List Node × Parser))
    (hx : x ≠ Result.outOfFuel) (h : parse_array_loop env f fuel p array = x) :
    parse_array_loop env f (fuel + extra) p array = x := by
  induction extra with
  | zero => exact h
  | succ k ih =>
    exact parse_array_loop_mono env f f (fun _ _ _ hq => hq) (fuel + k) p array x hx ih

/-- The loop of `parse_array` taken by itself, entered on the tokens `1 2 ]` with the `1` as
current token: it reports "expected ','" at the `2` and then consumes the `2` with its
unconditional `step()`; the elements are `Int(1)` and an `Error` for the `]`. -/
lemma array_separator_step_consumes (fuel : Nat) :
    parse_array_loop demo_env (parse demo_env 1) (4 + fuel)
        (state "1 2 ]" { index := 5, line := 1, column := 6 } 0 []
          (tok TokenType.Int 0 1) [tok TokenType.Int 2 1, tok TokenType.RBracket 4 1]) []
      = Result.ret ([Node.Int 1, Node.Error],
          state "1 2 ]" { index := 5, line := 1, column := 6 } 4
            [{ pos := { index := 2, line := 1, column := 3 },
               message := "expected ',', got Int" },
             { pos := { index := 4, line := 1, column := 5 },
               message := "expected value, got ]" },
             { pos := { index := 5, line := 1, column := 6 },
               message := "expected ',', got Eof" }]
            { type := TokenType.Eof, pos := { index := 5, line := 1, column := 6 },
              length := 0 } []) :=
  parse_array_loop_mono_add demo_env _ 4 fuel _ _ _ (by simp) rfl

/-- C13 (array separator recovery does not consume), evaluated at the text `[1 2 ]`, the
input that brings the claim's tokens `1 2 ]` into `parse_array`: no budget lets `parse`
return, so there are neither the elements `Int(1)`, `Int(2)` nor the "expected ','"
diagnostic, and the separator step is never reached. -/
theorem array_missing_comma_never_returns (fuel : Nat) :
    parse demo_env fuel
      (parser_on "[1 2 ]"
        [tok TokenType.LBracket 0 1, tok TokenType.Int 1 1, tok TokenType.Int 3 1,
         tok TokenType.RBracket 5 1])
      = Result.outOfFuel :=
  parse_LBracket demo_env fuel _ rfl

/-- C14 (object key resynchronization makes progress), evaluated on `\x7b\x7b` at the key
position, where the current token is the second `\x7b`: the skipping loop of the key-expected
branch returns at once with the lexer and the current token as they were, only the diagnostic
is added, and the field loop then never returns. -/
theorem key_resynchronization_stalls (fuel : Nat) :
    skip_loop (fuel + 1)
        (add_unexpected_error demo_env "String or '\x7d'"
          (state "\x7b\x7b" { index := 2, line := 1, column := 3 } 2 []
            (tok TokenType.LBrace 1 1) []))
      = Result.ret
          (state "\x7b\x7b" { index := 2, line := 1, column := 3 } 2
            [{ pos := { index := 1, line := 1, column := 2 },
               message := "expected String or '\x7d', got \x7b" }]
            (tok TokenType.LBrace 1 1) [])
    ∧ parse_object_loop demo_env (parse demo_env fuel) fuel
        (state "\x7b\x7b" { index := 2, line := 1, column := 3 } 2 []
          (tok TokenType.LBrace 1 1) []) [] = Result.outOfFuel :=
  ⟨rfl, parse_object_loop_LBrace demo_env _ fuel _ [] rfl⟩

/-! ## The cursor only moves forward -/

/-- The skipping loop never moves the cursor back. -/
lemma skip_loop_consumed (fuel : Nat) (p p1 : Parser) (h : skip_loop fuel p = Result.ret p1) :
    p.lexer.consumed ≤ p1.lexer.consumed := by
  induction fuel generalizing p with
  | zero => simp [skip_loop] at h
  | succ n ih =>
    rw [skip_loop] at h
    split at h
    · have := ih _ h
      rw [step_consumed] at this
      omega
    · simp only [Result.ret.injEq] at h
      rw [h]

/-- The array loop never moves the cursor back, `parse` moving it forward. -/
lemma parse_array_loop_consumed (env : Env) (f : Parser → Result (Node × Parser))
    (hf : ∀ q r q1, f q = Result.ret (r, q1) → q.lexer.consumed + 1 ≤ q1.lexer.consumed)
    (fuel : Nat) (p p1 : Parser) (array array1 : List Node)
    (h : parse_array_loop env f fuel p array = Result.ret (array1, p1)) :
    p.lexer.consumed ≤ p1.lexer.consumed := by
  induction fuel generalizing p array with
  | zero => simp [parse_array_loop] at h
  | succ n ih =>
    rw [parse_array_loop] at h
    by_cases hd : done p = true
    · simp only [hd, if_true, Result.ret.injEq, Prod.mk.injEq] at h
      rw [h.2]
    · simp only [hd, Bool.false_eq_true, if_false] at h
      cases hv : f p with
      | terminated => simp [hv] at h
      | outOfFuel => simp [hv] at h
      | ret r =>
        obtain ⟨value, q⟩ := r
        have hq := hf p value q hv
        simp only [hv] at h
        by_cases hc : q.current.type = TokenType.RBracket
        · simp only [hc, if_true, Result.ret.injEq, Prod.mk.injEq] at h
          rw [← h.2]
          omega
        · rw [if_neg hc] at h
          have := ih _ _ h
          rw [step_consumed] at this
          split at this <;> (try simp only [add_unexpected_error] at this) <;> omega

/-- The field loop never moves the cursor back, `parse` moving it forward. -/
lemma parse_object_loop_consumed (env : Env) (f : Parser → Result (Node × Parser))
    (hf : ∀ q r q1, f q = Result.ret (r, q1) → q.lexer.consumed + 1 ≤ q1.lexer.consumed)
    (fuel : Nat) (p p1 : Parser) (fields fields1 : List (String × Node))
    (h : parse_object_loop env f fuel p fields = Result.ret (fields1, p1)) :
    p.lexer.consumed ≤ p1.lexer.consumed := by
  induction fuel generalizing p fields with
  | zero => simp [parse_object_loop] at h
  | succ n ih =>
    rw [parse_object_loop] at h
    by_cases hd : done p = true
    · simp only [hd, if_true, Result.ret.injEq, Prod.mk.injEq] at h
      rw [h.2]
    · simp only [hd, Bool.false_eq_true, if_false] at h
      by_cases hs : p.current.type ≠ TokenType.String
      · simp only [if_pos hs] at h
        cases hk : skip_loop n (add_unexpected_error env "String or '\x7d'" p) with
        | terminated => simp [hk] at h
        | outOfFuel => simp [hk] at h
        | ret q =>
          simp only [hk] at h
          have h1 := skip_loop_consumed n _ q hk
          have h2 := ih _ _ h
          simp only [add_unexpected_error] at h1
          omega
      · simp only [if_neg hs] at h
        cases hv : string_literal_value p.text p.current with
        | none => simp [hv] at h
        | some key =>
          simp only [hv] at h
          generalize hq : (if (step p).current.type ≠ TokenType.Colon then
              add_unexpected_error env "':'" (step p) else step (step p)) = q at h
          have hqc : p.lexer.consumed + 1 ≤ q.lexer.consumed := by
            rw [← hq]
            split
            · simp only [add_unexpected_error, step_consumed]
              omega
            · rw [step_consumed, step_consumed]
              omega
          cases hfq : f q with
          | terminated => simp [hfq] at h
          | outOfFuel => simp [hfq] at h
          | ret r =>
            obtain ⟨value, q3⟩ := r
            have h3 := hf q value q3 hfq
            simp only [hfq] at h
            by_cases hc : q3.current.type = TokenType.RBrace
            · simp only [hc, if_true, Result.ret.injEq, Prod.mk.injEq] at h
              rw [← h.2]
              omega
            · rw [if_neg hc] at h
              have h4 := ih _ _ h
              have h5 : q3.lexer.consumed ≤
                  (if q3.current.type ≠ TokenType.Comma then
                    add_unexpected_error env "','" q3 else step q3).lexer.consumed := by
                split
                · simp only [add_unexpected_error]
                  omega
                · rw [step_consumed]
                  omega
              omega

/-- Whenever `parse` returns, the lexer has handed out at least one more token. -/
lemma parse_consumed (env : Env) (fuel : Nat) :
    ∀ (p : Parser) (node : Node) (p1 : Parser), parse env fuel p = Result.ret (node, p1) →
      p.lexer.consumed + 1 ≤ p1.lexer.consumed := by
  induction fuel with
  | zero =>
    intro p node p1 h
    simp [parse] at h
  | succ n ih =>
    intro p node p1 h
    rw [parse_succ] at h
    have hstep := step_consumed p
    split at h
    · simp only [parse_null, Result.ret.injEq, Prod.mk.injEq] at h
      rw [← h.2, hstep]
    · simp only [parse_bool, Result.ret.injEq, Prod.mk.injEq] at h
      rw [← h.2, hstep]
    · simp only [parse_bool, Result.ret.injEq, Prod.mk.injEq] at h
      rw [← h.2, hstep]
    · simp only [parse_int] at h
      split at h
      · simp at h
      · simp only [Result.ret.injEq, Prod.mk.injEq] at h
        rw [← h.2, hstep]
    · simp only [parse_decimal] at h
      split at h
      · simp at h
      · simp only [Result.ret.injEq, Prod.mk.injEq] at h
        rw [← h.2, hstep]
    · simp only [parse_string] at h
      split at h
      · simp at h
      · simp only [Result.ret.injEq, Prod.mk.injEq] at h
        rw [← h.2, hstep]
    · simp only [parse_array] at h
      cases hl : parse_array_loop env (parse env n) n p [] with
      | terminated => simp [hl] at h
      | outOfFuel => simp [hl] at h
      | ret r =>
        obtain ⟨array, q⟩ := r
        have hq := parse_array_loop_consumed env _ ih n p q [] array hl
        simp only [hl, Result.ret.injEq, Prod.mk.injEq] at h
        rw [← h.2, step_consumed]
        split <;> (try simp only [add_unexpected_error]) <;> omega
    · simp only [parse_object] at h
      cases hl : parse_object_loop env (parse env n) n (step p) [] with
      | terminated => simp [hl] at h
      | outOfFuel => simp [hl] at h
      | ret r =>
        obtain ⟨fields, q⟩ := r
        have hq := parse_object_loop_consumed env _ ih n (step p) q [] fields hl
        simp only [hl, Result.ret.injEq, Prod.mk.injEq] at h
        rw [← h.2, step_consumed]
        split <;> (try simp only [add_unexpected_error]) <;> omega
    · simp only [Result.ret.injEq, Prod.mk.injEq] at h
      rw [← h.2, step_consumed]
      simp only [add_unexpected_error]
      omega

/-- C15 (parse always advances): if a call of `parse` returns, the lexer has been asked for
at least one further token since the call was entered; this holds whatever the current
token at entry is, so in particular when it is not `Eof`. -/
theorem parse_always_advances (env : Env) (fuel : Nat) (p : Parser) (node : Node)
    (p1 : Parser) (h : parse env fuel p = Result.ret (node, p1)) :
    p.lexer.consumed + 1 ≤ p1.lexer.consumed :=
  parse_consumed env fuel p node p1 h

/-- The object `\x7b"a" 1\x7d`: `parse` returns after the lexer has handed out four more
tokens. -/
theorem parse_always_advances_witness :
    parse demo_env 2
        (state nocolon_text { index := 7, line := 1, column := 8 } 1 []
          (tok TokenType.LBrace 0 1)
          [tok TokenType.String 1 3, tok TokenType.Int 5 1, tok TokenType.RBrace 6 1])
      = Result.ret (Node.Object [("a", Node.Int 1)],
          state nocolon_text { index := 7, line := 1, column := 8 } 5
            [{ pos := { index := 5, line := 1, column := 6 },
               message := "expected ':', got Int" }]
            { type := TokenType.Eof, pos := { index := 7, line := 1, column := 8 },
              length := 0 } [])
    ∧ (state nocolon_text { index := 7, line := 1, column := 8 } 1 []
          (tok TokenType.LBrace 0 1)
          [tok TokenType.String 1 3, tok TokenType.Int 5 1,
           tok TokenType.RBrace 6 1]).lexer.consumed + 1
        ≤ (state nocolon_text { index := 7, line := 1, column := 8 } 5
            [{ pos := { index := 5, line := 1, column := 6 },
               message := "expected ':', got Int" }]
            { type := TokenType.Eof, pos := { index := 7, line := 1, column := 8 },
              length := 0 } []).lexer.consumed :=
  ⟨rfl, parse_always_advances demo_env 2 _ _ _ rfl⟩

/-! ## Missing comma between fields -/

/-- C19 (short string tokens wrap around): for a `String` token of length 0 or 1 whose index
lies inside the text, `length - 2` wraps to `2 ^ 64 - 2 + length`, and `parse` returns a
`String` node that holds the whole remainder of the text from `index + 1` on. The text is
shorter than `2 ^ 64`, as every `std::string` is. -/
theorem short_string_token_wraps (env : Env) (fuel : Nat) (p : Parser)
    (ht : p.current.type = TokenType.String)
    (hlen : p.current.length ≤ 1)
    (hin : p.current.pos.index + 1 ≤ p.text.length)
    (hsz : p.text.length < SIZE_MOD) :
    (p.current.length + SIZE_MOD - 2) % SIZE_MOD = 2 ^ 64 - 2 + p.current.length
    ∧ ∃ v p1, parse env (fuel + 1) p = Result.ret (Node.String v, p1)
      ∧ v.data = p.text.data.drop (p.current.pos.index + 1)
      ∧ v.length = p.text.length - (p.current.pos.index + 1)
      ∧ p1.errors = p.errors
      ∧ p1.current = p.lexer.next.1
      ∧ p1.lexer = p.lexer.next.2 := by
  have hM : SIZE_MOD = 18446744073709551616 := by norm_num [SIZE_MOD]
  rw [hM] at hsz
  have hlen2 : p.text.data.length = p.text.length := rfl
  have h1 : (p.current.pos.index + 1) % SIZE_MOD = p.current.pos.index + 1 := by
    rw [hM]; omega
  have h2 : (p.current.length + SIZE_MOD - 2) % SIZE_MOD
      = 18446744073709551614 + p.current.length := by
    rw [hM]; omega
  have htake : (p.text.data.drop (p.current.pos.index + 1)).take
      (18446744073709551614 + p.current.length) = p.text.data.drop (p.current.pos.index + 1) := by
    apply List.take_of_length_le
    rw [List.length_drop]
    omega
  have hv : string_literal_value p.text p.current
      = some ⟨p.text.data.drop (p.current.pos.index + 1)⟩ := by
    simp only [string_literal_value, substr, h1, h2, htake]
    rw [if_neg (by omega)]
  refine ⟨by rw [h2]; norm_num, ⟨p.text.data.drop (p.current.pos.index + 1)⟩, step p, ?_, rfl,
    ?_, rfl, rfl, rfl⟩
  · rw [parse_succ]
    simp only [ht, parse_string, hv]
  · simp only [String.length, List.length_drop]

/-- The text `"ab` with a `String` token of length 1 at the quote: the node holds `ab`. -/
theorem short_string_token_wraps_witness :
    ((parser_on "\"ab" [tok TokenType.String 0 1]).current.type = TokenType.String
      ∧ (parser_on "\"ab" [tok TokenType.String 0 1]).current.length ≤ 1
      ∧ (parser_on "\"ab" [tok TokenType.String 0 1]).current.pos.index + 1
          ≤ (parser_on "\"ab" [tok TokenType.String 0 1]).text.length
      ∧ (parser_on "\"ab" [tok TokenType.String 0 1]).text.length < SIZE_MOD)
    ∧ ((parser_on "\"ab" [tok TokenType.String 0 1]).current.length + SIZE_MOD - 2) % SIZE_MOD
        = 2 ^ 64 - 2 + (parser_on "\"ab" [tok TokenType.String 0 1]).current.length
    ∧ ∃ v p1, parse demo_env (0 + 1) (parser_on "\"ab" [tok TokenType.String 0 1])
        = Result.ret (Node.String v, p1)
      ∧ v.data = (parser_on "\"ab" [tok TokenType.String 0 1]).text.data.drop
          ((parser_on "\"ab" [tok TokenType.String 0 1]).current.pos.index + 1)
      ∧ v.length = (parser_on "\"ab" [tok TokenType.String 0 1]).text.length
          - ((parser_on "\"ab" [tok TokenType.String 0 1]).current.pos.index + 1)
      ∧ p1.errors = (parser_on "\"ab" [tok TokenType.String 0 1]).errors
      ∧ p1.current = (parser_on "\"ab" [tok TokenType.String 0 1]).lexer.next.1
      ∧ p1.lexer = (parser_on "\"ab" [tok TokenType.String 0 1]).lexer.next.2 :=
  ⟨⟨by decide, by decide, by decide, by decide⟩,
    short_string_token_wraps demo_env 0 (parser_on "\"ab" [tok TokenType.String 0 1])
      (by decide) (by decide) (by decide) (by decide)⟩

/-! ## Recovery on flat token streams -/

/-- The member `step` keeps a flat stream flat. -/
lemma flat_step (env : Env) (p : Parser) (h : flat env p) : flat env (step p) := by
  obtain ⟨-, hr⟩ := h
  unfold flat
  simp only [step, Lexer.next]
  cases hrest : p.lexer.rest with
  | nil => exact ⟨by simp [flat_token, token_ok, is_scalar], by simp⟩
  | cons t ts =>
    rw [hrest] at hr
    exact ⟨hr t (by simp), fun u hu => hr u (by simp [hu])⟩

/-- The member `add_unexpected_error` keeps a flat stream flat. -/
lemma flat_add (env : Env) (expected : String) (p : Parser) (h : flat env p) :
    flat env (add_unexpected_error env expected p) := h

/-- After `step` at most the tokens that were in the lexer remain. -/
lemma remaining_step (p : Parser) : remaining (step p) ≤ p.lexer.rest.length := by
  obtain ⟨text, ⟨rest, eofPos, c⟩, errs, cur⟩ := p
  cases rest with
  | nil => simp [remaining, step, Lexer.next]
  | cons t ts =>
    simp only [remaining, step, Lexer.next, List.length_cons]
    split <;> omega

/-- The tokens in the lexer are at most those that remain. -/
lemma rest_le_remaining (p : Parser) : p.lexer.rest.length ≤ remaining p := by
  simp [remaining]

/-- The tokens in the lexer are fewer than those that remain when the current one is not
`Eof`. -/
lemma rest_lt_remaining (p : Parser) (h : p.current.type ≠ TokenType.Eof) :
    p.lexer.rest.length < remaining p := by
  simp [remaining, h]

/-- The member `add_unexpected_error` leaves the remaining tokens as they are. -/
lemma remaining_add (env : Env) (expected : String) (p : Parser) :
    remaining (add_unexpected_error env expected p) = remaining p := rfl

/-- On a flat token `parse` returns, with a flat stream and the current token consumed. -/
lemma parse_flat (env : Env) (k : Nat) (p : Parser) (h : flat env p) :
    ∃ v q, parse env (k + 1) p = Result.ret (v, q) ∧ flat env q
      ∧ remaining q ≤ p.lexer.rest.length := by
  have hcur := h.1
  simp only [flat_token, token_ok, Bool.and_eq_true, Bool.or_eq_true, decide_eq_true_eq,
    Bool.not_eq_true', ne_eq, Option.isSome_iff_exists] at hcur
  obtain ⟨⟨hb1, hb2⟩, hok⟩ := hcur
  by_cases hs : is_scalar p.current.type = true
  · rcases hok with hok | ⟨v, hv⟩
    · rw [hs] at hok
      exact absurd hok (by simp)
    · exact ⟨v, step p, parse_scalar env k p v hv, flat_step env p h, remaining_step p⟩
  · refine ⟨Node.Error, step (add_unexpected_error env "value" p), ?_,
      flat_step env _ (flat_add env _ p h), remaining_step _⟩
    rw [parse_succ]
    simp only [is_scalar, Bool.or_eq_true, decide_eq_true_eq, not_or] at hs
    split <;> simp_all

/-- The skipping loop on a flat stream returns within as many rounds as tokens remain, and
consumes a token if the current one is neither `Eof` nor a `String`. -/
lemma skip_loop_flat (env : Env) (n : Nat) : ∀ (p : Parser), flat env p → remaining p < n →
    ∃ q, skip_loop n p = Result.ret q ∧ flat env q ∧ remaining q ≤ remaining p
      ∧ (done p = false → p.current.type ≠ TokenType.String → remaining q < remaining p) := by
  induction n with
  | zero => intro p _ h; omega
  | succ m ih =>
    intro p hflat hrem
    rw [skip_loop]
    by_cases hc : (!done p && decide (p.current.type ≠ TokenType.String)
        && decide (p.current.type ≠ TokenType.LBrace)) = true
    · rw [if_pos hc]
      simp only [Bool.and_eq_true, Bool.not_eq_true', decide_eq_true_eq] at hc
      have hne : p.current.type ≠ TokenType.Eof := by
        have := hc.1.1
        simpa [done] using this
      have hlt : remaining (step p) < remaining p :=
        Nat.lt_of_le_of_lt (remaining_step p) (rest_lt_remaining p hne)
      obtain ⟨q, hq, hfq, hrq, -⟩ := ih (step p) (flat_step env p hflat) (by omega)
      exact ⟨q, hq, hfq, by omega, fun _ _ => by omega⟩
    · rw [if_neg hc]
      refine ⟨p, rfl, hflat, Nat.le_refl _, ?_⟩
      intro hd hs
      have hb := hflat.1
      simp only [flat_token, Bool.and_eq_true, decide_eq_true_eq] at hb
      simp [hd, hs, hb.1.2] at hc

/-- A `String` token that has a node has an interior. -/
lemma string_token_ok (env : Env) (text : String) (t : Token)
    (ht : t.type = TokenType.String) (hok : token_ok env text t = true) :
    ∃ key, string_literal_value text t = some key := by
  simp only [token_ok, is_scalar, ht, Bool.or_eq_true, Bool.not_eq_true',
    Option.isSome_iff_exists] at hok
  rcases hok with hok | ⟨v, hv⟩
  · simp at hok
  · cases hk : string_literal_value text t with
    | some key => exact ⟨key, rfl⟩
    | none =>
      simp [scalar_node, is_scalar, ht, parse_succ, state, parse_string, hk] at hv

/-- The field loop on a flat stream returns within two rounds more than tokens remain. -/
lemma parse_object_loop_flat (env : Env) (f : Parser → Result (Node × Parser))
    (hf : ∀ q, flat env q → ∃ v q1, f q = Result.ret (v, q1) ∧ flat env q1
      ∧ remaining q1 ≤ q.lexer.rest.length)
    (n : Nat) : ∀ (p : Parser) (acc : List (String × Node)), flat env p →
      remaining p + 2 ≤ n →
      ∃ fields q, parse_object_loop env f n p acc = Result.ret (fields, q) := by
  induction n with
  | zero => intro p acc _ h; omega
  | succ m ih =>
    intro p acc hflat hrem
    rw [parse_object_loop]
    by_cases hd : done p = true
    · exact ⟨acc, p, by simp [hd]⟩
    · have hd2 : done p = false := by simpa using hd
      have hne : p.current.type ≠ TokenType.Eof := by simpa [done] using hd2
      simp only [hd2, Bool.false_eq_true, if_false]
      by_cases hs : p.current.type ≠ TokenType.String
      · rw [if_pos hs]
        obtain ⟨q, hq, hfq, -, hlt⟩ := skip_loop_flat env m
          (add_unexpected_error env "String or '\x7d'" p) (flat_add env _ p hflat)
          (by rw [remaining_add]; omega)
        have hlt2 := hlt hd2 hs
        rw [remaining_add] at hlt2
        simp only [hq]
        exact ih q acc hfq (by omega)
      · rw [if_neg hs]
        have hty : p.current.type = TokenType.String := by simpa using hs
        have hb := hflat.1
        simp only [flat_token, Bool.and_eq_true] at hb
        obtain ⟨key, hkey⟩ := string_token_ok env p.text p.current hty hb.2
        simp only [hkey]
        have h1f := flat_step env p hflat
        have h1r : remaining (step p) < remaining p :=
          Nat.lt_of_le_of_lt (remaining_step p) (rest_lt_remaining p hne)
        generalize hq2 : (if (step p).current.type ≠ TokenType.Colon then
            add_unexpected_error env "':'" (step p) else step (step p)) = p2
        have h2 : flat env p2 ∧ remaining p2 ≤ remaining (step p) := by
          rw [← hq2]
          split
          · exact ⟨flat_add env _ _ h1f, Nat.le_refl _⟩
          · exact ⟨flat_step env _ h1f,
              Nat.le_trans (remaining_step _) (rest_le_remaining _)⟩
        obtain ⟨v, p3, hv, h3f, h3r⟩ := hf p2 h2.1
        have h3r2 : remaining p3 ≤ remaining p2 := Nat.le_trans h3r (rest_le_remaining p2)
        simp only [hv]
        by_cases hc : p3.current.type = TokenType.RBrace
        · exact ⟨_, p3, by rw [if_pos hc]⟩
        · rw [if_neg hc]
          generalize hq4 : (if p3.current.type ≠ TokenType.Comma then
              add_unexpected_error env "','" p3 else step p3) = p4
          have h4 : flat env p4 ∧ remaining p4 ≤ remaining p3 := by
            rw [← hq4]
            split
            · exact ⟨flat_add env _ _ h3f, Nat.le_refl _⟩
            · exact ⟨flat_step env _ h3f,
                Nat.le_trans (remaining_step _) (rest_le_remaining _)⟩
          exact ih p4 _ h4.1 (by omega)

/-- After the first token is consumed, a stream whose other tokens are flat is flat. -/
lemma flat_step_state (env : Env) (text : String) (eofPos : Position) (c : Nat)
    (errs : List Error) (t : Token) (ts : List Token)
    (h : ∀ u ∈ ts, flat_token env text u = true) :
    flat env (step (state text eofPos c errs t ts)) := by
  cases ts with
  | nil => exact ⟨by simp [flat_token, token_ok, is_scalar, step, state, Lexer.next], by
      simp [step, state, Lexer.next]⟩
  | cons u us =>
    exact ⟨h u (by simp), fun w hw => h w (by
      simp only [step, state, Lexer.next] at hw
      simp [hw])⟩

/-- A token whose rule cannot terminate the process has a node if it is a scalar token. -/
lemma token_ok_of_convertible (env : Env) (text : String) (t : Token)
    (h : convertible env text t = true) : token_ok env text t = true := by
  unfold convertible at h
  unfold token_ok scalar_node
  cases hty : t.type <;> simp only [hty] at h <;>
    simp [hty, is_scalar, parse_succ, state, parse_null, parse_bool]
  · obtain ⟨v, hv⟩ := Option.isSome_iff_exists.mp h
    simp [parse_int, hv]
  · obtain ⟨v, hv⟩ := Option.isSome_iff_exists.mp h
    simp [parse_decimal, hv]
  · obtain ⟨v, hv⟩ := Option.isSome_iff_exists.mp h
    simp [parse_string, hv]

/-- C18 as stated fails on `\x7b"a": 9223372036854775808\x7d`, a stream with no `[` and no
`\x7b` after the first token: `std::stoll` throws inside the `noexcept` rule `parse_int`, the
process is terminated, and with no budget does `parse` return a node. -/
theorem flat_stream_with_overflowing_int_terminates_process :
    parse demo_env 3
        (state overflow_text { index := 26, line := 1, column := 27 } 1 []
          (tok TokenType.LBrace 0 1) overflow_tokens) = Result.terminated
    ∧ (∀ u ∈ overflow_tokens, u.type ≠ TokenType.LBracket ∧ u.type ≠ TokenType.LBrace)
    ∧ ¬ ∃ fuel node p1, parse demo_env fuel
        (state overflow_text { index := 26, line := 1, column := 27 } 1 []
          (tok TokenType.LBrace 0 1) overflow_tokens) = Result.ret (node, p1) := by
  have h3 : parse demo_env 3
      (state overflow_text { index := 26, line := 1, column := 27 } 1 []
        (tok TokenType.LBrace 0 1) overflow_tokens) = Result.terminated := rfl
  refine ⟨h3, by decide, ?_⟩
  rintro ⟨fuel, node, p1, hp⟩
  have ha := parse_mono demo_env fuel 3 _ _ (by simp) hp
  have hb := parse_mono demo_env 3 fuel _ _ (by simp) h3
  rw [Nat.add_comm 3 fuel, ha] at hb
  simp at hb

/-- C18 as amended (recovery terminates on flat objects): on a token stream with no `[` and
with no `\x7b` other than possibly the first token, in which the text of every `Int` and
`Decimal` token converts and every `String` token starts inside the text, however the tokens
are arranged, `parse` returns a node and a parser state (whose diagnostics are a list, hence
finitely many) as soon as the fuel is three more than the number of tokens after the first. -/
theorem flat_stream_parse_returns (env : Env) (text : String) (eofPos : Position) (c : Nat)
    (errs : List Error) (t : Token) (ts : List Token) (fuel : Nat)
    (h1 : t.type ≠ TokenType.LBracket)
    (hts : ∀ u ∈ ts, u.type ≠ TokenType.LBracket ∧ u.type ≠ TokenType.LBrace)
    (hconv : ∀ u ∈ t :: ts, convertible env text u = true)
    (hfuel : ts.length + 3 ≤ fuel) :
    ∃ node p1, parse env fuel (state text eofPos c errs t ts) = Result.ret (node, p1) := by
  have hok : ∀ u ∈ t :: ts, token_ok env text u = true :=
    fun u hu => token_ok_of_convertible env text u (hconv u hu)
  obtain ⟨n, rfl⟩ : ∃ n, fuel = n + 1 := ⟨fuel - 1, by omega⟩
  obtain ⟨m, rfl⟩ : ∃ m, n = m + 1 := ⟨n - 1, by omega⟩
  have hrest : ∀ u ∈ ts, flat_token env text u = true := by
    intro u hu
    have h2 := hts u hu
    have h3 := hok u (by simp [hu])
    simp [flat_token, h2.1, h2.2, h3]
  by_cases hb : t.type = TokenType.LBrace
  · have hflat := flat_step_state env text eofPos c errs t ts hrest
    have hrem : remaining (step (state text eofPos c errs t ts)) ≤ ts.length :=
      remaining_step _
    obtain ⟨fields, q, hq⟩ := parse_object_loop_flat env (parse env (m + 1))
      (fun q hq => parse_flat env m q hq) (m + 1) _ [] hflat (by omega)
    rw [parse_succ]
    have hty : (state text eofPos c errs t ts).current.type = TokenType.LBrace := hb
    simp only [hty, parse_object, hq]
    exact ⟨_, _, rfl⟩
  · have hflat : flat env (state text eofPos c errs t ts) := by
      refine ⟨?_, hrest⟩
      have h3 := hok t (by simp)
      simp only [state]
      simp [flat_token, h1, hb, h3]
    obtain ⟨v, q, hq, -, -⟩ := parse_flat env (m + 1) _ hflat
    exact ⟨v, q, hq⟩

/-- The garbled object `\x7b,"a"::1]\x7d`: `parse` returns. -/
theorem flat_stream_parse_returns_witness :
    ((tok TokenType.LBrace 0 1).type ≠ TokenType.LBracket
      ∧ (∀ u ∈ garbled_tokens, u.type ≠ TokenType.LBracket ∧ u.type ≠ TokenType.LBrace)
      ∧ (∀ u ∈ tok TokenType.LBrace 0 1 :: garbled_tokens,
          convertible demo_env garbled_text u = true)
      ∧ garbled_tokens.length + 3 ≤ 10)
    ∧ ∃ node p1,
      parse demo_env 10
          (state garbled_text { index := 10, line := 1, column := 11 } 1 []
            (tok TokenType.LBrace 0 1) garbled_tokens)
        = Result.ret (node, p1) :=
  ⟨⟨by decide, by decide, by decide, by decide⟩,
    flat_stream_parse_returns demo_env garbled_text { index := 10, line := 1, column := 11 }
      1 [] (tok TokenType.LBrace 0 1) garbled_tokens 10
      (by decide) (by decide) (by decide) (by decide)⟩

/-! ## Well-formed nested objects -/

/-- The tokens of a value start with a token. -/
lemma doc_tokens_cons (d : Doc) : ∃ t ts, d.tokens = t :: ts := by
  cases d with
  | scalar t => exact ⟨t, [], rfl⟩
  | object o fs c => exact ⟨o, _, rfl⟩

/-- The tokens of a sequence of fields start with a token. -/
lemma nested_tokens_cons (fs : Fields) : ∃ t ts, fs.tokens = t :: ts := by
  cases fs with
  | last k c v => exact ⟨k, _, rfl⟩
  | more k c v cm r => exact ⟨k, _, rfl⟩

/-- One `emplace` of a key the map does not hold appends the entry. -/
lemma emplace_new (acc : List (String × Node)) (k : String) (v : Node)
    (h : ∀ a ∈ acc, a.1 ≠ k) : emplace acc k v = acc ++ [(k, v)] := by
  unfold emplace
  rw [if_neg]
  simp only [List.any_eq_true, decide_eq_true_eq, not_exists, not_and]
  exact h

/-- The successive calls of `emplace` for entries with pairwise distinct keys, none of them in
the map yet, append the entries in order. -/
lemma emplace_all_nodup (es : List (String × Node)) :
    ∀ acc : List (String × Node), (∀ kv ∈ es, ∀ a ∈ acc, a.1 ≠ kv.1) →
      (es.map Prod.fst).Nodup → emplace_all acc es = acc ++ es := by
  induction es with
  | nil => intro acc _ _; simp [emplace_all]
  | cons kv tl ih =>
    intro acc hacc hnd
    simp only [List.map_cons, List.nodup_cons, List.mem_map, not_exists, not_and] at hnd
    have h1 : emplace acc kv.1 kv.2 = acc ++ [kv] :=
      emplace_new acc kv.1 kv.2 (fun a ha => hacc kv (by simp) a ha)
    have hstep : emplace_all acc (kv :: tl) = emplace_all (emplace acc kv.1 kv.2) tl := rfl
    rw [hstep, h1, ih (acc ++ [kv]) ?_ hnd.2]
    · simp
    · intro x hx a ha
      simp only [List.mem_append, List.mem_singleton] at ha
      rcases ha with ha | ha
      · exact hacc x (by simp [hx]) a ha
      · rw [ha]
        exact fun heq => hnd.1 x hx heq.symm

/-- One round of the field loop on `key : value` followed by the token `nxt`, for a value that
`parse` turns into the node `v` without a diagnostic. -/
lemma loop_round (env : Env) (f : Parser → Result (Node × Parser)) (text : String)
    (eofPos : Position) (c : Nat) (errs : List Error) (acc : List (String × Node))
    (key colon : Token) (name : String) (v : Node) (vt : Token) (vts : List Token) (c3 : Nat)
    (nxt : Token) (more : List Token) (n : Nat)
    (hk : key.type = TokenType.String) (hname : string_literal_value text key = some name)
    (hc : colon.type = TokenType.Colon)
    (hp : f (state text eofPos (c + 1 + 1) errs vt vts)
      = Result.ret (v, state text eofPos c3 errs nxt more)) :
    parse_object_loop env f (n + 1) (state text eofPos c errs key (colon :: vt :: vts)) acc =
      if nxt.type = TokenType.RBrace then
        Result.ret (emplace acc name v, state text eofPos c3 errs nxt more)
      else
        parse_object_loop env f n
          (if nxt.type ≠ TokenType.Comma then
            add_unexpected_error env "','" (state text eofPos c3 errs nxt more)
           else step (state text eofPos c3 errs nxt more))
          (emplace acc name v) := by
  have hd : done (state text eofPos c errs key (colon :: vt :: vts)) = false := by
    simp [done, state, hk]
  rw [parse_object_loop]
  simp only [state] at hp
  simp only [hd, Bool.false_eq_true, if_false]
  simp only [state, hk, hname, step, Lexer.next, hc, ne_eq, not_true_eq_false, if_false, hp]

mutual
/-- On the tokens of a well-formed value followed by a token, `parse` returns the value's
node without a diagnostic and stops on that token. -/
theorem parse_doc (env : Env) (text : String) (eofPos : Position) :
    ∀ (d : Doc), d.ok env text = true →
      ∀ (fuel c : Nat) (errs : List Error) (nxt : Token) (more : List Token) (t : Token)
        (ts : List Token), t :: ts = d.tokens ++ nxt :: more → d.tokens.length ≤ fuel →
        parse env fuel (state text eofPos c errs t ts)
          = Result.ret (d.node env text,
              state text eofPos (c + d.tokens.length) errs nxt more)
  | Doc.scalar t0, hok, fuel, c, errs, nxt, more, t, ts, hts, hfuel => by
    simp only [Doc.ok, Bool.and_eq_true, Option.isSome_iff_exists] at hok
    obtain ⟨-, v, hv⟩ := hok
    simp only [Doc.tokens, List.cons_append, List.nil_append, List.cons.injEq] at hts
    obtain ⟨rfl, rfl⟩ := hts
    obtain ⟨k, rfl⟩ : ∃ k, fuel = k + 1 := ⟨fuel - 1, by simp [Doc.tokens] at hfuel; omega⟩
    rw [parse_scalar env k (state text eofPos c errs t (nxt :: more)) v hv]
    simp [Doc.node, hv, Doc.tokens, step_state]
  | Doc.object o fs cl, hok, fuel, c, errs, nxt, more, t, ts, hts, hfuel => by
    simp only [Doc.ok, Bool.and_eq_true, decide_eq_true_eq] at hok
    obtain ⟨⟨⟨ho, hfs⟩, hnd⟩, hcl⟩ := hok
    obtain ⟨k0, tl, hk0⟩ := nested_tokens_cons fs
    simp only [Doc.tokens, List.cons_append, List.cons.injEq] at hts
    obtain ⟨rfl, rfl⟩ := hts
    simp only [Doc.tokens, List.length_cons, List.length_append, List.length_nil] at hfuel
    obtain ⟨k, rfl⟩ : ∃ k, fuel = k + 1 := ⟨fuel - 1, by omega⟩
    have hloop := loop_doc env text eofPos fs hfs k k (c + 1) errs [] cl (nxt :: more) k0
      (tl ++ cl :: nxt :: more) hcl (by rw [hk0]; simp) (by omega) (by omega)
    have hstep : step (state text eofPos c errs t (fs.tokens ++ [cl] ++ nxt :: more))
        = state text eofPos (c + 1) errs k0 (tl ++ cl :: nxt :: more) := by
      rw [hk0]
      simp [step_state]
    have hty : (state text eofPos c errs t (fs.tokens ++ [cl] ++ nxt :: more)).current.type
        = TokenType.LBrace := ho
    have hcl2 : (state text eofPos (c + 1 + fs.tokens.length) errs cl
        (nxt :: more)).current.type = TokenType.RBrace := hcl
    rw [parse_succ]
    simp only [hty, parse_object, hstep, hloop, hcl2, ne_eq, not_true_eq_false, if_false,
      step_state]
    rw [emplace_all_nodup _ [] (by simp) hnd]
    simp only [Doc.node, Doc.tokens, List.nil_append, List.length_cons, List.length_append,
      List.length_nil, Result.ret.injEq, Prod.mk.injEq, true_and]
    simp only [state, Parser.mk.injEq, Lexer.mk.injEq, true_and, and_true]
    omega
/-- On the tokens of well-formed fields followed by `\x7d`, the field loop stops at the
`\x7d` with the entries emplaced in source order and without a diagnostic. -/
theorem loop_doc (env : Env) (text : String) (eofPos : Position) :
    ∀ (fs : Fields), fs.ok env text = true →
      ∀ (fuel n c : Nat) (errs : List Error) (acc : List (String × Node)) (close : Token)
        (rest : List Token) (t : Token) (ts : List Token),
        close.type = TokenType.RBrace → t :: ts = fs.tokens ++ close :: rest →
        fs.tokens.length ≤ fuel → fs.tokens.length ≤ n →
        parse_object_loop env (parse env fuel) n (state text eofPos c errs t ts) acc
          = Result.ret (emplace_all acc (fs.entries env text),
              state text eofPos (c + fs.tokens.length) errs close rest)
  | Fields.last key colon v, hok, fuel, n, c, errs, acc, close, rest, t, ts, hclose, hts,
      hfuel, hn => by
    simp only [Fields.ok, Bool.and_eq_true, decide_eq_true_eq, Option.isSome_iff_exists] at hok
    obtain ⟨⟨⟨hk, name, hname⟩, hc⟩, hv⟩ := hok
    obtain ⟨vt, vts, hvt⟩ := doc_tokens_cons v
    simp only [Fields.tokens, List.length_cons] at hfuel hn
    simp only [Fields.tokens, List.cons_append, List.cons.injEq] at hts
    obtain ⟨rfl, rfl⟩ := hts
    obtain ⟨m, rfl⟩ : ∃ m, n = m + 1 := ⟨n - 1, by omega⟩
    have hp := parse_doc env text eofPos v hv fuel (c + 1 + 1) errs close rest vt
      (vts ++ close :: rest) (by rw [hvt]; simp) (by omega)
    have hrest : colon :: (v.tokens ++ close :: rest) = colon :: vt :: (vts ++ close :: rest) := by
      rw [hvt]; simp
    rw [hrest, loop_round env (parse env fuel) text eofPos c errs acc t colon name
      (v.node env text) vt (vts ++ close :: rest) _ close rest m hk hname hc hp, if_pos hclose]
    simp only [Fields.entries, hname, Option.getD_some, emplace_all, List.foldl_cons,
      List.foldl_nil, Fields.tokens, List.length_cons, Result.ret.injEq, Prod.mk.injEq, true_and]
    simp only [state, Parser.mk.injEq, Lexer.mk.injEq, true_and, and_true]
    omega
  | Fields.more key colon v comma r, hok, fuel, n, c, errs, acc, close, rest, t, ts, hclose,
      hts, hfuel, hn => by
    simp only [Fields.ok, Bool.and_eq_true, decide_eq_true_eq, Option.isSome_iff_exists] at hok
    obtain ⟨⟨⟨⟨⟨hk, name, hname⟩, hc⟩, hv⟩, hcm⟩, hr⟩ := hok
    obtain ⟨vt, vts, hvt⟩ := doc_tokens_cons v
    obtain ⟨k1, tl1, hk1⟩ := nested_tokens_cons r
    simp only [Fields.tokens, List.length_cons, List.length_append] at hfuel hn
    simp only [Fields.tokens, List.cons_append, List.cons.injEq] at hts
    obtain ⟨rfl, rfl⟩ := hts
    obtain ⟨m, rfl⟩ : ∃ m, n = m + 1 := ⟨n - 1, by omega⟩
    have hp := parse_doc env text eofPos v hv fuel (c + 1 + 1) errs comma
      (r.tokens ++ close :: rest) vt (vts ++ comma :: (r.tokens ++ close :: rest))
      (by rw [hvt]; simp) (by omega)
    have hrest : colon :: (v.tokens ++ comma :: r.tokens ++ close :: rest)
        = colon :: vt :: (vts ++ comma :: (r.tokens ++ close :: rest)) := by
      rw [hvt]; simp
    have e1 : ¬ comma.type = TokenType.RBrace := by simp [hcm]
    have e2 : ¬ comma.type ≠ TokenType.Comma := by simp [hcm]
    have hstep : step (state text eofPos (c + 1 + 1 + v.tokens.length) errs comma
        (r.tokens ++ close :: rest))
        = state text eofPos (c + 1 + 1 + v.tokens.length + 1) errs k1
            (tl1 ++ close :: rest) := by
      rw [hk1]
      simp [step_state]
    have hrec := loop_doc env text eofPos r hr fuel m (c + 1 + 1 + v.tokens.length + 1) errs
      (emplace acc name (v.node env text)) close rest k1 (tl1 ++ close :: rest) hclose
      (by rw [hk1]; simp) (by omega) (by omega)
    rw [hrest, loop_round env (parse env fuel) text eofPos c errs acc t colon name
      (v.node env text) vt (vts ++ comma :: (r.tokens ++ close :: rest)) _ comma
      (r.tokens ++ close :: rest) m hk hname hc hp, if_neg e1, if_neg e2, hstep, hrec]
    simp only [Fields.entries, hname, Option.getD_some, emplace_all, List.foldl_cons,
      Fields.tokens, List.length_cons, List.length_append, Result.ret.injEq, Prod.mk.injEq,
      true_and]
    simp only [state, Parser.mk.injEq, Lexer.mk.injEq, true_and, and_true]
    omega
end

end CamperJson
